import Mathlib

/-!
Verification development for the `descriptastorus` raw storage engine
(`descriptastorus/raw.py`).  The file gives a shallow embedding of the
store: the data file is a `List Nat` of byte values, rows are lists of
Python values, and the operations `MakeStore`, `RawStore.get`,
`RawStore.putRow`, `RawStore.getColByIdx`, `RawStore.appendBlankRows`,
`RawStore._openfile` and the row iterator are translated function by
function.  Python's `struct` module is embedded in native (`@`) mode,
which is what the source uses (its format strings carry no byte-order
prefix), so alignment padding is inserted between fields exactly as
CPython does on a little-endian 64-bit platform.

Floating point columns (`f`/`d`) exist in the type vocabulary because
`MakeStore` maps them, but the payload encoding of Python floats is not
embedded; every theorem below restricts itself to stores without float
columns, and the pack/unpack functions return a distinguished
`PyErr.unmodelled` marker on those fields so nothing silently fakes
them.
-/

set_option maxRecDepth 4000

namespace Descriptastorus

/-- Access mode constant `Mode.READONLY` from `raw.py`. -/
def Mode.READONLY : Nat := 0

/-- Access mode constant `Mode.WRITE`. -/
def Mode.WRITE : Nat := 1

/-- Access mode constant `Mode.APPEND`. -/
def Mode.APPEND : Nat := 2

/-- Access mode constant `Mode.READONCE` ("read through the file once"). -/
def Mode.READONCE : Nat := 3

/-- A Python value as far as the raw store manipulates them: integers,
booleans, text strings and byte strings (both as lists of byte values)
and `None`.  Python floats are outside the embedded fragment. -/
inductive PyVal where
  | int (n : Int)
  | bool (b : Bool)
  | str (s : List Nat)
  | bytes (b : List Nat)
  | none
  deriving DecidableEq

/-- One token of a `struct` format string: the format characters the
store can generate (`i q B H I Q f d ?` and `<n>s`). -/
inductive Fmt where
  | i
  | q
  | B
  | H
  | I
  | Q
  | f
  | d
  | boolF
  | s (n : Nat)
  deriving DecidableEq

/-- Byte width of one field, as `struct.calcsize` counts it. -/
def Fmt.size : Fmt → Nat
  | .i => 4
  | .q => 8
  | .B => 1
  | .H => 2
  | .I => 4
  | .Q => 8
  | .f => 4
  | .d => 8
  | .boolF => 1
  | .s n => n

/-- Native-mode alignment requirement of a field (on x86-64 every
numeric type is aligned to its own size; `s` fields have alignment 1). -/
def Fmt.align : Fmt → Nat
  | .s _ => 1
  | t => t.size

/-- The Python callables `MakeStore` records in the `dtypes` metadata
list: `int`, `float`, `bool` and the helper `str_store`. -/
inductive DType where
  | intD
  | floatD
  | boolD
  | strStore
  deriving DecidableEq

/-- The Python exceptions the embedded code can raise.  `typeErrorCols`
carries the column indices enumerated in the multi-line `TypeError`
message built by `putRow`; `unhandledType` is the
`ValueError("Unhandled numpy type %s")` raised by `MakeStore`;
`unmodelled` marks operations outside the embedded fragment (float
payloads, format strings indexed per character). -/
inductive PyErr where
  | indexError
  | valueError
  | typeErrorCols (cols : List Nat)
  | structError
  | ioError
  | attributeError
  | unboundLocal
  | unhandledType
  | unicodeDecodeError
  | unmodelled
  deriving DecidableEq

/-- Round `off` up to a multiple of `a` (no-op when already aligned). -/
def alignTo (off a : Nat) : Nat :=
  if off % a = 0 then off else off + (a - off % a)

/-- End offset after laying the fields `fs` out starting at `off`
(native alignment, no trailing padding) — `struct.calcsize` relative to
a start offset. -/
def calcsizeFrom : List Fmt → Nat → Nat
  | [], off => off
  | t :: ts, off => calcsizeFrom ts (alignTo off t.align + t.size)

/-- `struct.calcsize` of a format in native mode. -/
def calcsize (fs : List Fmt) : Nat := calcsizeFrom fs 0

/-- Little-endian byte list of `u`, `w` bytes long. -/
def encLE : Nat → Nat → List Nat
  | 0, _ => []
  | w + 1, u => u % 256 :: encLE w (u / 256)

/-- Value of a little-endian byte list (bytes are reduced mod 256). -/
def leVal : List Nat → Nat
  | [] => 0
  | b :: bs => b % 256 + 256 * leVal bs

/-- Two's-complement little-endian encoding of the integer `n` in `w`
bytes. -/
def encIntLE (w : Nat) (n : Int) : List Nat :=
  encLE w (n % ((2 : Int) ^ (8 * w))).toNat

/-- `struct`'s integer formats accept Python ints and bools (bool is a
subclass of int) and nothing else. -/
def intLike : PyVal → Option Int
  | .int n => some n
  | .bool b => some (if b then 1 else 0)
  | _ => Option.none

/-- Python truthiness of the embedded values. -/
def truthy : PyVal → Bool
  | .int n => decide (n ≠ 0)
  | .bool b => b
  | .str s => !s.isEmpty
  | .bytes b => !b.isEmpty
  | .none => false

/-- Pack one integer-format field: requires an int-like argument in
`[lo, hi)`, else `struct.error`. -/
def packIntField (w : Nat) (lo hi : Int) (v : PyVal) : Except PyErr (List Nat) :=
  match intLike v with
  | some n => if lo ≤ n ∧ n < hi then .ok (encIntLE w n) else .error .structError
  | Option.none => .error .structError

/-- Pack a single field in native mode.  An `s` field takes a byte
string, truncated to the declared width and zero padded; `?` packs the
argument's truthiness; float payloads are outside the embedded
fragment. -/
def packField : Fmt → PyVal → Except PyErr (List Nat)
  | .i, v => packIntField 4 (-(2 ^ 31)) (2 ^ 31) v
  | .q, v => packIntField 8 (-(2 ^ 63)) (2 ^ 63) v
  | .B, v => packIntField 1 0 (2 ^ 8) v
  | .H, v => packIntField 2 0 (2 ^ 16) v
  | .I, v => packIntField 4 0 (2 ^ 32) v
  | .Q, v => packIntField 8 0 (2 ^ 64) v
  | .boolF, v => .ok [if truthy v then 1 else 0]
  | .s n, .bytes b => .ok (b.take n ++ List.replicate (n - b.length) 0)
  | .s _, _ => .error .structError
  | .f, _ => .error .unmodelled
  | .d, _ => .error .unmodelled

/-- Decode a little-endian two's-complement value of `w` bytes. -/
def decSigned (w : Nat) (bs : List Nat) : Int :=
  let u : Int := leVal bs
  if u < (2 : Int) ^ (8 * w - 1) then u else u - (2 : Int) ^ (8 * w)

/-- Decode a single field from its byte slice. -/
def unpackField : Fmt → List Nat → Except PyErr PyVal
  | .i, bs => .ok (.int (decSigned 4 bs))
  | .q, bs => .ok (.int (decSigned 8 bs))
  | .B, bs => .ok (.int (leVal bs))
  | .H, bs => .ok (.int (leVal bs))
  | .I, bs => .ok (.int (leVal bs))
  | .Q, bs => .ok (.int (leVal bs))
  | .boolF, bs => .ok (.bool (decide (leVal bs ≠ 0)))
  | .s _, bs => .ok (.bytes bs)
  | .f, _ => .error .unmodelled
  | .d, _ => .error .unmodelled

/-- `struct.pack` worker: lays fields out from `off`, emitting the zero
padding native alignment inserts before each field.  A count mismatch
between format and arguments is a `struct.error`. -/
def packAux : List Fmt → List PyVal → Nat → Except PyErr (List Nat)
  | [], [], _ => .ok []
  | t :: ts, v :: vs, off =>
    let aligned := alignTo off t.align
    match packField t v with
    | .error e => .error e
    | .ok enc =>
      match packAux ts vs (aligned + t.size) with
      | .error e => .error e
      | .ok rest => .ok (List.replicate (aligned - off) 0 ++ enc ++ rest)
  | _, _, _ => .error .structError

/-- `struct.pack` in native mode. -/
def pack (fs : List Fmt) (vs : List PyVal) : Except PyErr (List Nat) :=
  packAux fs vs 0

/-- `struct.unpack` worker: reads each field at its aligned offset in
the buffer `bs`. -/
def unpackAux : List Fmt → List Nat → Nat → Except PyErr (List PyVal)
  | [], _, _ => .ok []
  | t :: ts, bs, off =>
    let aligned := alignTo off t.align
    match unpackField t ((bs.drop aligned).take t.size) with
    | .error e => .error e
    | .ok v =>
      match unpackAux ts bs (aligned + t.size) with
      | .error e => .error e
      | .ok rest => .ok (v :: rest)

/-- `struct.unpack`: the buffer must be exactly `calcsize` bytes long,
else `struct.error`. -/
def unpack (fs : List Fmt) (bs : List Nat) : Except PyErr (List PyVal) :=
  if bs.length = calcsize fs then unpackAux fs bs 0 else .error .structError

/-- `convert_string` from `raw.py` under the Python-2 reading the
source requires: `str.encode(v)` ascii-decodes and then ascii-encodes,
so it is the identity on the bytes of a pure-ASCII string and raises
`UnicodeDecodeError` (a `ValueError` subclass) as soon as any byte is
`>= 0x80`; both text and byte strings are `str` in Python 2, so both
go through the encode; values of other types pass through unchanged. -/
def convert_string : PyVal → Except PyErr PyVal
  | .str s =>
    if s.all (fun c => c < 128) then .ok (.bytes s) else .error .unicodeDecodeError
  | .bytes b =>
    if b.all (fun c => c < 128) then .ok (.bytes b) else .error .unicodeDecodeError
  | v => .ok v

/-- The list comprehension `[convert_string(x) for x in row]` evaluated
left to right at the `struct.pack` call site; the first
`UnicodeDecodeError` aborts it. -/
def convertRow : List PyVal → Except PyErr (List PyVal)
  | [] => .ok []
  | v :: vs =>
    match convert_string v with
    | .error e => .error e
    | .ok w =>
      match convertRow vs with
      | .error e => .error e
      | .ok ws => .ok (w :: ws)

/-- Is `c` an ASCII decimal digit? -/
def isDigit (c : Nat) : Bool := 48 ≤ c && c ≤ 57

/-- Numeric value of a list of ASCII digits. -/
def digitsToNat (cs : List Nat) : Nat :=
  cs.foldl (fun a c => 10 * a + (c - 48)) 0

/-- ASCII whitespace as Python `int()` strips it. -/
def pyWhitespace (c : Nat) : Bool :=
  c == 32 || c == 9 || c == 10 || c == 11 || c == 12 || c == 13

/-- Python `int()` applied to a string/bytes object: surrounding
whitespace is stripped, then an optional sign followed by decimal
digits parses; anything else raises `ValueError`. -/
def parseInt (cs : List Nat) : Option Int :=
  let t := ((cs.dropWhile pyWhitespace).reverse.dropWhile pyWhitespace).reverse
  match t with
  | 45 :: rest =>
    if rest.isEmpty then Option.none
    else if rest.all isDigit then some (-(digitsToNat rest : Int)) else Option.none
  | 43 :: rest =>
    if rest.isEmpty then Option.none
    else if rest.all isDigit then some (digitsToNat rest) else Option.none
  | _ =>
    if t.isEmpty then Option.none
    else if t.all isDigit then some (digitsToNat t) else Option.none

/-- Decimal ASCII representation of a natural number. -/
def natDecimal (n : Nat) : List Nat := (Nat.toDigits 10 n).map Char.toNat

/-- Decimal ASCII representation of an integer. -/
def intDecimal (n : Int) : List Nat :=
  if n < 0 then 45 :: natDecimal n.natAbs else natDecimal n.toNat

/-- Python `str(v)` as a byte list, in the Python-2 reading the source
was written for (`str` of a byte string is the byte string itself). -/
def pyStrBytes : PyVal → List Nat
  | .str s => s
  | .bytes b => b
  | .int n => intDecimal n
  | .bool b => if b then [84, 114, 117, 101] else [70, 97, 108, 115, 101]
  | .none => [78, 111, 110, 101]

/-- The two exception classes a failed `dtype(v)` coercion can raise:
`TypeError` (e.g. `int(None)`) or `ValueError` (e.g. `int("abc")`). -/
inductive CoerceErr where
  | typeErr
  | valueErr
  deriving DecidableEq

/-- Apply one recorded dtype callable to a value: `int(v)`, `bool(v)`,
`str_store(v) = str.encode(str(v))` — whose `str.encode` raises
`UnicodeDecodeError` (a `ValueError`) on any non-ASCII byte, Python-2
reading.  `float(v)` is outside the embedded fragment (no theorem
touches a float column). -/
def coerce : DType → PyVal → Except CoerceErr PyVal
  | .intD, .int n => .ok (.int n)
  | .intD, .bool b => .ok (.int (if b then 1 else 0))
  | .intD, .str s =>
    match parseInt s with
    | some n => .ok (.int n)
    | Option.none => .error .valueErr
  | .intD, .bytes b =>
    match parseInt b with
    | some n => .ok (.int n)
    | Option.none => .error .valueErr
  | .intD, .none => .error .typeErr
  | .boolD, v => .ok (.bool (truthy v))
  | .strStore, v =>
    if (pyStrBytes v).all (fun c => c < 128) then .ok (.bytes (pyStrBytes v))
    else .error .valueErr
  | .floatD, _ => .error .typeErr

/-- Does `dtype(v)` raise (any exception)?  Mirrors the bare `except:`
in `putRow`'s error-message loop. -/
def coerceFails (d : DType) (v : PyVal) : Bool :=
  match coerce d v with
  | .error _ => true
  | .ok _ => false

/-- The list comprehension `[dtype(v) for dtype, v in zip(...)]`:
left-to-right, aborting at the first failing coercion (`zip` truncates
to the shorter list). -/
def coerceRow : List DType → List PyVal → Except CoerceErr (List PyVal)
  | d :: ds, v :: vs =>
    match coerce d v with
    | .error e => .error e
    | .ok w =>
      match coerceRow ds vs with
      | .error e => .error e
      | .ok ws => .ok (w :: ws)
  | _, _ => .ok []

/-- Worker for `failingCols`: walks `enumerate(zip(dtypes, row))`
collecting the indices whose coercion raises. -/
def failingColsAux : Nat → List (DType × PyVal) → List Nat
  | _, [] => []
  | j, (d, v) :: rest =>
    if coerceFails d v then j :: failingColsAux (j + 1) rest
    else failingColsAux (j + 1) rest

/-- The column indices enumerated in the `TypeError` message `putRow`
builds ("For column %r can't convert %r to %s", one line per failing
column). -/
def failingCols (ds : List DType) (vs : List PyVal) : List Nat :=
  failingColsAux 0 (ds.zip vs)

/-- The `__rawformat__` metadata pickled by `MakeStore` and loaded by
`RawStore.__init__`: format tokens, dtype callables, column names, row
byte width and row count `N`.  In the source `pack_format` is the
concatenated format string; the token list here is its parse, which
matches the string character-for-character whenever no `<n>s` token is
present. -/
structure RawFormat where
  pack_format : List Fmt
  dtypes : List DType
  colnames : List String
  rowbytes : Nat
  N : Nat
  deriving DecidableEq

/-- Write `data` into `file` at byte offset `pos`, zero-filling any gap
beyond the current end (regular-file / sparse semantics used by
`appendBlankRows`; for in-range writes it is a plain splice). -/
def fileWriteAt (file : List Nat) (pos : Nat) (data : List Nat) : List Nat :=
  (file.take pos ++ List.replicate (pos - file.length) 0) ++ data ++
    file.drop (pos + data.length)

/-- Does the format contain an `s` field?  (`"s" in self.pack_format`). -/
def hasS (fs : List Fmt) : Bool :=
  fs.any fun t => match t with | .s _ => true | _ => false

/-- The per-value postprocessing `get` applies when the format contains
`s`: `str(x).replace("\x00", "")` for string/byte values (Python-2
reading: the identity on the characters, then removal of every NUL,
interior ones included), other values untouched. -/
def stripNulStr : PyVal → PyVal
  | .str s => .str (s.filter fun c => c != 0)
  | .bytes b => .str (b.filter fun c => c != 0)
  | v => v

/-- `RawStore.get`: bounds check (negative or past `N` raises
`IndexError`), seek to `idx * rowbytes` (a failed `mmap` seek is caught
and re-raised as `IndexError`), read one row, `struct.unpack` it, and
strip NULs from string fields when the format has any. -/
def get (fmt : RawFormat) (file : List Nat) (idx : Int) : Except PyErr (List PyVal) :=
  if (fmt.N : Int) ≤ idx ∨ idx < 0 then .error .indexError
  else
    let offset := idx.toNat * fmt.rowbytes
    if file.length < offset then .error .indexError
    else
      match unpack fmt.pack_format ((file.drop offset).take fmt.rowbytes) with
      | .error e => .error e
      | .ok res => .ok (if hasS fmt.pack_format then res.map stripNulStr else res)

/-- `RawStore.putRow`: checks `idx >= N` (note: no negative-index
check), then the row arity, then coerces every value (a `TypeError`
from the first failing coercion is replaced by the enumerated message,
any other exception propagates), seeks (an `mmap` seek to a negative or
past-the-end offset raises `ValueError`), packs the ORIGINAL row values
(the coerced list `v` is discarded by the source) and writes the row
bytes in place. -/
def putRow (fmt : RawFormat) (file : List Nat) (idx : Int) (row : List PyVal) :
    Except PyErr (List Nat) :=
  if (fmt.N : Int) ≤ idx then .error .indexError
  else if row.length ≠ fmt.dtypes.length then .error .valueError
  else
    match coerceRow fmt.dtypes row with
    | .error .typeErr => .error (.typeErrorCols (failingCols fmt.dtypes row))
    | .error .valueErr => .error .valueError
    | .ok _ =>
      let offset := idx * (fmt.rowbytes : Int)
      if offset < 0 then .error .valueError
      else if (file.length : Int) < offset then .error .valueError
      else
        match convertRow row with
        | .error e => .error e
        | .ok cvs =>
          match pack fmt.pack_format cvs with
          | .error e => .error e
          | .ok bs =>
            if file.length < offset.toNat + bs.length then .error .valueError
            else .ok (fileWriteAt file offset.toNat bs)

/-- The numpy logical types a caller can hand to `MakeStore`:
the nine mapped scalar types, fixed-size string dtypes
(`hasattr(dtype, "type")` and `dtype.type == numpy.string_`), dtype
instances whose `.type` is not `string_` (e.g. `numpy.dtype("float16")`),
and objects with no `type` attribute at all. -/
inductive NpType where
  | int32
  | int64
  | uint8
  | uint16
  | uint32
  | uint64
  | float32
  | float64
  | boolN
  | strDtype (itemsize : Nat)
  | otherDtype (tag : String)
  | otherPlain (tag : String)
  deriving DecidableEq

/-- The `if dtype == numpy.int32: ... elif ...` chain of `MakeStore`:
format token and dtype callable for each mapped logical type. -/
def npMap : NpType → Option (Fmt × DType)
  | .int32 => some (.i, .intD)
  | .int64 => some (.q, .intD)
  | .uint8 => some (.B, .intD)
  | .uint16 => some (.H, .intD)
  | .uint32 => some (.I, .intD)
  | .uint64 => some (.Q, .intD)
  | .float32 => some (.f, .floatD)
  | .float64 => some (.d, .floatD)
  | .boolN => some (.boolF, .boolD)
  | .strDtype n => some (.s n, .strStore)
  | .otherDtype _ => Option.none
  | .otherPlain _ => Option.none

/-- The column loop of `MakeStore`.  `stale` carries the Python local
variable `type` across iterations: a dtype instance with a non-string
`.type` attribute matches no branch, so the loop appends the PREVIOUS
column's format character (or raises `UnboundLocalError` on the first
column) and appends nothing to `dtypes`; a type with no `type`
attribute raises `ValueError("Unhandled numpy type %s")`. -/
def mapColsAux : List (String × NpType) → Option Fmt →
    Except PyErr (List String × List Fmt × List DType)
  | [], _ => .ok ([], [], [])
  | (name, t) :: rest, stale =>
    match npMap t with
    | some (tok, dt) =>
      match mapColsAux rest (some tok) with
      | .error e => .error e
      | .ok (ns, ts, ds) => .ok (name :: ns, tok :: ts, dt :: ds)
    | Option.none =>
      match t with
      | .otherPlain _ => .error .unhandledType
      | _ =>
        match stale with
        | Option.none => .error .unboundLocal
        | some tk =>
          match mapColsAux rest stale with
          | .error e => .error e
          | .ok (ns, ts, ds) => .ok (name :: ns, tk :: ts, ds)

/-- `MakeStore cols N`: derives the column layout, computes
`rowbytes = len(struct.pack(pack_format, *[d(0) for d in dtypes]))`
(every zero default packs, so this is `struct.calcsize` of the format —
but `struct.pack` raises when the argument count differs from the
format's field count, which happens whenever a column was silently
skipped), pickles the metadata and creates the data file by seeking to
`rowbytes * N` and writing a single `\0` (so the file is
`rowbytes * N + 1` zero bytes).  Directory bookkeeping (`os.mkdir`
happens before any of these checks; no file exists yet when they
raise) is outside the embedding.  `if not N` rejects `N = 0`. -/
def MakeStore (cols : List (String × NpType)) (N : Nat) :
    Except PyErr (RawFormat × List Nat) :=
  if N = 0 then .error .valueError
  else
    match mapColsAux cols Option.none with
    | .error e => .error e
    | .ok (names, types, ds) =>
      if types.length ≠ ds.length then .error .structError
      else
        .ok (⟨types, ds, names, calcsize types, N⟩,
          List.replicate (calcsize types * N) 0 ++ [0])

/-- What `self.f` (the backing resource of an open handle) can be: an
`mmap` view, a plain buffered file object, Python `None`, or a closed
resource. -/
inductive Backing where
  | mmapView
  | plainHandle
  | pyNone
  | closed
  deriving DecidableEq

/-- An open `RawStore` handle: the loaded `__rawformat__` metadata, the
data file contents, the mode it was opened with, and the backing
resource `self.f`. -/
structure StoreState where
  fmt : RawFormat
  file : List Nat
  mode : Nat
  backing : Backing
  deriving DecidableEq

/-- `RawStore._openfile`, entered with `self._f = None` (as set by
`__init__`).  The branch structure of the source is an `if` for APPEND
(assigning `self._f`) followed by a separate `if/elif/else` in which
READONLY and the catch-all `else` assign `self._f`, while READONCE
assigns a plain handle to `self.f` only.  The method then ends with
`self.f = mmap(...) if self._f is not None else self._f`; for READONCE
`self._f` is still `None`, so the plain handle just opened is
overwritten and `self.f` becomes `None`. -/
def openfileBacking (mode : Nat) : Backing :=
  let underlying : Option Unit := if mode = Mode.APPEND then some () else Option.none
  let assigned : Option Unit × Option Unit :=
    if mode = Mode.READONLY then (some (), Option.none)
    else if mode = Mode.READONCE then (underlying, some ())
    else (some (), Option.none)
  match assigned.1 with
  | some _ => Backing.mmapView
  | Option.none => Backing.pyNone

/-- `RawStore.__init__` on an existing store: load the metadata, record
the mode and call `_openfile`. -/
def openStore (fmt : RawFormat) (file : List Nat) (mode : Nat) : StoreState :=
  ⟨fmt, file, mode, openfileBacking mode⟩

/-- `get` through a handle.  The bounds check at the top of
`RawStore.get` raises `IndexError` before `self.f` is ever touched;
only then does the seek hit the backing resource, where a `None`
backing raises `AttributeError` and a closed resource `ValueError`. -/
def storeGet (st : StoreState) (idx : Int) : Except PyErr (List PyVal) :=
  if (st.fmt.N : Int) ≤ idx ∨ idx < 0 then .error .indexError
  else
    match st.backing with
    | .pyNone => .error .attributeError
    | .closed => .error .valueError
    | _ => get st.fmt st.file idx

/-- `RawStore.appendBlankRows M`: requires append mode (else `IOError`),
then CLOSES the mapping and file handle, and only then validates
`M >= 1` (so a bad `M` leaves the handle closed); on success it seeks
the reopened raw file to `rowbytes * (N + M)`, writes one `\0`
(zero-filling the gap), bumps `N`, rewrites the metadata and reopens
the backing.  Returns the raised exception (if any) together with the
handle state afterwards. -/
def appendBlankRows (st : StoreState) (M : Int) : Option PyErr × StoreState :=
  if st.mode ≠ Mode.APPEND then (some .ioError, st)
  else
    let st1 : StoreState := { st with backing := Backing.closed }
    if M < 1 then (some .valueError, st1)
    else
      let pos := st.fmt.rowbytes * (st.fmt.N + M.toNat)
      (Option.none,
        { fmt := { st.fmt with N := st.fmt.N + M.toNat },
          file := fileWriteAt st1.file pos [0],
          mode := st.mode,
          backing := openfileBacking st.mode })

/-- The `while 1` loop of the generator `getColByIdx`: read `nbytes` at
the current position (a short read means `struct.error`, whose handler
ends the iteration), yield the unpacked ONE-ELEMENT TUPLE, then seek
ahead by `rowbytes` (a failed seek also ends the iteration).  The fuel
argument strictly bounds the iteration count; callers pass more fuel
than any position sequence with `rowbytes ≥ 1` can consume. -/
def getColLoop (file : List Nat) (rowbytes nbytes : Nat) (fc : Fmt) :
    Nat → Nat → List (List PyVal)
  | _, 0 => []
  | pos, fuel + 1 =>
    let bs := (file.drop pos).take nbytes
    if bs.length ≠ nbytes then []
    else
      match unpackField fc bs with
      | .error _ => []
      | .ok v =>
        if file.length < pos + rowbytes then [[v]]
        else [v] :: getColLoop file rowbytes nbytes fc (pos + rowbytes) fuel

/-- `RawStore.getColByIdx column`: computes the column's start offset
as `len(struct.pack(pack_format[:column], *zeros))` and its width from
`pack_format[column]`, seeks there and runs the read/yield/seek loop.
In the source `pack_format` is a string and `column` is used as a
CHARACTER index, which coincides with the column index exactly when
every token is one character; formats containing `<n>s` tokens (where
the two indexings diverge) and `rowbytes = 0` (where the source loops
forever) are outside the embedding and marked `unmodelled`. -/
def getColByIdx (fmt : RawFormat) (file : List Nat) (c : Nat) :
    Except PyErr (List (List PyVal)) :=
  if hasS fmt.pack_format then .error .unmodelled
  else if fmt.rowbytes = 0 then .error .unmodelled
  else
    match fmt.pack_format.get? c with
    | Option.none => .error .indexError
    | some fc =>
      let colOff := calcsize (fmt.pack_format.take c)
      if file.length < colOff then .error .valueError
      else .ok (getColLoop file fmt.rowbytes fc.size fc colOff (file.length + 2))

/-- `RawStore.getCol column_name`: `self.colnames.index(name)` (a
missing name raises `ValueError`) then `getColByIdx`. -/
def getCol (fmt : RawFormat) (file : List Nat) (name : String) :
    Except PyErr (List (List PyVal)) :=
  match fmt.colnames.indexOf? name with
  | some j => getColByIdx fmt file j
  | Option.none => .error .valueError

/-- The state of a `RawStoreIter`: the cursor `self.i`, initialised to
`-1`. -/
structure RawStoreIter where
  i : Int
  deriving DecidableEq

/-- `RawStore.__iter__` returns a fresh `RawStoreIter(raw)`. -/
def iterInit : RawStoreIter := ⟨-1⟩

/-- `RawStoreIter.next`: increment the cursor; `StopIteration` (here
`none`) once it reaches `N`, else yield `raw.get(i)`. -/
def iterNext (fmt : RawFormat) (file : List Nat) (s : RawStoreIter) :
    Option (RawStoreIter × Except PyErr (List PyVal)) :=
  let i := s.i + 1
  if (fmt.N : Int) ≤ i then Option.none
  else some (⟨i⟩, get fmt file i)

/-- Drive an iterator until `StopIteration`, with fuel (the iterator
stops after at most `N` yields, so any fuel `≥ N + 1` is exact). -/
def iterRun (fmt : RawFormat) (file : List Nat) : RawStoreIter → Nat →
    List (Except PyErr (List PyVal))
  | _, 0 => []
  | s, fuel + 1 =>
    match iterNext fmt file s with
    | Option.none => []
    | some (s2, x) => x :: iterRun fmt file s2 fuel

/-- Full traversal of the store through a fresh iterator. -/
def storeIter (fmt : RawFormat) (file : List Nat) : List (Except PyErr (List PyVal)) :=
  iterRun fmt file iterInit (fmt.N + 1)

/-- Tokens that are not float payloads (the embedded fragment). -/
def notFloatTok : Fmt → Bool
  | .f => false
  | .d => false
  | _ => true

/-- Single-byte numeric tokens (`B` and `?`). -/
def byteTok : Fmt → Bool
  | .B => true
  | .boolF => true
  | _ => false

/-- Decoded value of a single-byte token read from byte `b`. -/
def decTok : Fmt → Nat → PyVal
  | .B, b => .int (b % 256)
  | .boolF, b => .bool (decide (b % 256 ≠ 0))
  | _, _ => .none

/-- Which (format token, dtype callable) pairs `MakeStore`'s mapping
can produce for one column. -/
def tokMatch : Fmt → DType → Bool
  | .i, .intD => true
  | .q, .intD => true
  | .B, .intD => true
  | .H, .intD => true
  | .I, .intD => true
  | .Q, .intD => true
  | .f, .floatD => true
  | .d, .floatD => true
  | .boolF, .boolD => true
  | .s _, .strStore => true
  | _, _ => false

/-- A descriptor is valid when its format tokens and dtype callables
line up pairwise as `MakeStore` produces them. -/
def tokMatchAll (ts : List Fmt) (ds : List DType) : Bool :=
  decide (ts.length = ds.length) && (ts.zip ds).all fun p => tokMatch p.1 p.2

/-- The value `struct.unpack` gives back for one field that was packed
from `v` (before `get`'s NUL stripping): integer fields return the
int-like value, `?` returns the truthiness, `s` fields return the
stored width-`n` buffer (value truncated to `n` bytes and zero
padded).  Only meaningful when `packField` succeeded on `v`. -/
def bytesOfVal : PyVal → List Nat
  | .bytes b => b
  | _ => []

/-- See `bytesOfVal`; the expected unpacked field for each token. -/
def expectedField : Fmt → PyVal → PyVal
  | .i, v | .q, v | .B, v | .H, v | .I, v | .Q, v =>
    match intLike v with
    | some n => .int n
    | Option.none => .none
  | .boolF, v => .bool (truthy v)
  | .s n, v => .bytes ((bytesOfVal v).take n ++ List.replicate (n - (bytesOfVal v).length) 0)
  | .f, _ => .none
  | .d, _ => .none

/-- The row `get` returns right after `putRow` stored `vs` (the
already-`convert_string`ed values): the unpacked fields, with NUL
stripping applied when the format has an `s` field. -/
def expectedGet (fs : List Fmt) (vs : List PyVal) : List PyVal :=
  let raw := List.zipWith expectedField fs vs
  if hasS fs then raw.map stripNulStr else raw

/-- Sum of the per-column encoding sizes, with no alignment padding —
what the spec asserts `row_width` to be. -/
def sumFieldSizes (fs : List Fmt) : Nat := (fs.map Fmt.size).sum

/-- Concrete store: one `int32` column, one row (`MakeStore
[("a", numpy.int32)] 1`). -/
def fmtI : RawFormat := ⟨[.i], [.intD], ["a"], 4, 1⟩

/-- Data file of `fmtI` as `MakeStore` creates it. -/
def fileI : List Nat := List.replicate 4 0 ++ [0]

/-- Concrete store: one fixed-4-byte string column, one row. -/
def fmtS : RawFormat := ⟨[.s 4], [.strStore], ["b"], 4, 1⟩

/-- Data file of `fmtS` as `MakeStore` creates it. -/
def fileS : List Nat := List.replicate 4 0 ++ [0]

/-- Concrete store: one `uint8` column, one row. -/
def fmtB : RawFormat := ⟨[.B], [.intD], ["a"], 1, 1⟩

/-- Data file of `fmtB` as `MakeStore` creates it. -/
def fileB : List Nat := [0, 0]

/-- Concrete store: one `uint8` column, three rows. -/
def fmtB3 : RawFormat := ⟨[.B], [.intD], ["a"], 1, 3⟩

/-- Data file of `fmtB3` as `MakeStore` creates it. -/
def fileB3 : List Nat := List.replicate 3 0 ++ [0]

/-- Concrete store: two `int32` columns, one row. -/
def fmtII : RawFormat := ⟨[.i, .i], [.intD, .intD], ["a", "b"], 8, 1⟩

/-- Data file of `fmtII` as `MakeStore` creates it. -/
def fileII : List Nat := List.replicate 8 0 ++ [0]

/-- Concrete store from the spec scenario: columns
`[("a", int32), ("b", fixed_bytes(4))]`, three rows. -/
def fmtA : RawFormat := ⟨[.i, .s 4], [.intD, .strStore], ["a", "b"], 8, 3⟩

/-- Data file of `fmtA` as `MakeStore` creates it. -/
def fileA : List Nat := List.replicate 24 0 ++ [0]

/-- Concrete store: a `uint8` column followed by an `int32` column,
three rows — native alignment pads the row to 8 bytes. -/
def fmtBI : RawFormat := ⟨[.B, .i], [.intD, .intD], ["a", "b"], 8, 3⟩

/-- Data file of `fmtBI` as `MakeStore` creates it. -/
def fileBI : List Nat := List.replicate 24 0 ++ [0]

/-- Decidable equality of `Except` results, so concrete runs can be
checked by `decide`. -/
instance exceptDecEq {ε α : Type} [DecidableEq ε] [DecidableEq α] :
    DecidableEq (Except ε α) := fun a b =>
  match a, b with
  | .ok x, .ok y =>
    if h : x = y then isTrue (by rw [h]) else isFalse (fun hc => h (Except.ok.inj hc))
  | .ok _, .error _ => isFalse (fun hc => Except.noConfusion hc)
  | .error _, .ok _ => isFalse (fun hc => Except.noConfusion hc)
  | .error e1, .error e2 =>
    if h : e1 = e2 then isTrue (by rw [h]) else isFalse (fun hc => h (Except.error.inj hc))

lemma alignTo_ge (off a : Nat) : off ≤ alignTo off a := by
  unfold alignTo
  split <;> omega

lemma encLE_length (w : Nat) : ∀ u, (encLE w u).length = w := by
  induction w with
  | zero => intro u; rfl
  | succ w ih => intro u; simp [encLE, ih]

lemma leVal_encLE (w : Nat) : ∀ u, leVal (encLE w u) = u % 2 ^ (8 * w) := by
  induction w with
  | zero => intro u; simp [encLE, leVal, Nat.mul_zero, Nat.pow_zero, Nat.mod_one]
  | succ w ih =>
    intro u
    have hpow : 2 ^ (8 * (w + 1)) = 256 * 2 ^ (8 * w) := by
      rw [Nat.mul_succ, Nat.pow_add]
      ring
    have e1 : u % 256 % 256 = u % 256 := by omega
    rw [encLE, leVal, ih (u / 256), e1, hpow, Nat.mod_mul]

lemma fileWriteAt_length (f : List Nat) (p : Nat) (d : List Nat) :
    (fileWriteAt f p d).length = max f.length (p + d.length) := by
  simp only [fileWriteAt, List.length_append, List.length_take,
    List.length_replicate, List.length_drop]
  omega

lemma fileWriteAt_slice (file : List Nat) (off : Nat) (data : List Nat)
    (h : off + data.length ≤ file.length) :
    ((fileWriteAt file off data).drop off).take data.length = data := by
  have h1 : off - file.length = 0 := by omega
  have heq : fileWriteAt file off data =
      file.take off ++ (data ++ file.drop (off + data.length)) := by
    unfold fileWriteAt
    rw [h1, List.replicate_zero, List.append_nil, List.append_assoc]
  have h2 : (file.take off).length = off := by
    simp only [List.length_take]
    omega
  rw [heq, List.drop_left' h2, List.take_left' rfl]

lemma fileWriteAt_take (f : List Nat) (p : Nat) (d : List Nat) (q : Nat)
    (hq : q ≤ p) (hql : q ≤ f.length) :
    (fileWriteAt f p d).take q = f.take q := by
  unfold fileWriteAt
  rw [List.append_assoc, List.take_append_eq_append_take]
  have h1 : q - (f.take p ++ List.replicate (p - f.length) 0).length = 0 := by
    simp only [List.length_append, List.length_take, List.length_replicate]
    omega
  rw [h1, List.take_zero, List.append_nil, List.take_append_eq_append_take]
  have h2 : q - (f.take p).length = 0 := by
    simp only [List.length_take]
    omega
  rw [h2, List.take_zero, List.append_nil, List.take_take]
  have h3 : min q p = q := by omega
  rw [h3]

lemma slice_eq_of_take_eq (f g : List Nat) (q p n : Nat)
    (h : f.take q = g.take q) (hpn : p + n ≤ q) :
    (f.drop p).take n = (g.drop p).take n := by
  have key : ∀ l : List Nat, (l.drop p).take n = (((l.take q).drop p)).take n := by
    intro l
    rw [List.drop_take]
    rw [List.take_take]
    have : min n (q - p) = n := by omega
    rw [this]
  rw [key f, key g, h]

lemma packIntField_inv (w : Nat) (lo hi : Int) (v : PyVal) (enc : List Nat)
    (h : packIntField w lo hi v = .ok enc) :
    ∃ n, intLike v = some n ∧ lo ≤ n ∧ n < hi ∧ enc = encIntLE w n := by
  cases hint : intLike v with
  | none => simp [packIntField, hint] at h
  | some n =>
    simp only [packIntField, hint] at h
    split at h
    next hc => exact ⟨n, rfl, hc.1, hc.2, (Except.ok.inj h).symm⟩
    next hc => cases h

lemma packField_length (t : Fmt) (v : PyVal) (e : List Nat)
    (h : packField t v = .ok e) : e.length = t.size := by
  cases t
  case i =>
    obtain ⟨n, _, _, _, henc⟩ := packIntField_inv 4 _ _ v e h
    subst henc
    exact encLE_length _ _
  case q =>
    obtain ⟨n, _, _, _, henc⟩ := packIntField_inv 8 _ _ v e h
    subst henc
    exact encLE_length _ _
  case B =>
    obtain ⟨n, _, _, _, henc⟩ := packIntField_inv 1 _ _ v e h
    subst henc
    exact encLE_length _ _
  case H =>
    obtain ⟨n, _, _, _, henc⟩ := packIntField_inv 2 _ _ v e h
    subst henc
    exact encLE_length _ _
  case I =>
    obtain ⟨n, _, _, _, henc⟩ := packIntField_inv 4 _ _ v e h
    subst henc
    exact encLE_length _ _
  case Q =>
    obtain ⟨n, _, _, _, henc⟩ := packIntField_inv 8 _ _ v e h
    subst henc
    exact encLE_length _ _
  case boolF =>
    simp only [packField] at h
    cases h
    rfl
  case f => simp only [packField] at h; cases h
  case d => simp only [packField] at h; cases h
  case s n =>
    cases v with
    | bytes b =>
      simp only [packField] at h
      cases h
      simp only [Fmt.size, List.length_append, List.length_take, List.length_replicate]
      omega
    | int m => simp only [packField] at h; cases h
    | bool b => simp only [packField] at h; cases h
    | str s2 => simp only [packField] at h; cases h
    | none => simp only [packField] at h; cases h

lemma calcsizeFrom_ge (fs : List Fmt) : ∀ off, off ≤ calcsizeFrom fs off := by
  induction fs with
  | nil => intro off; exact Nat.le_refl off
  | cons t ts ih =>
    intro off
    have h1 := alignTo_ge off t.align
    have h2 := ih (alignTo off t.align + t.size)
    calc off ≤ alignTo off t.align + t.size := by omega
      _ ≤ _ := h2

lemma packAux_length (fs : List Fmt) : ∀ (vs : List PyVal) (off : Nat) (bs : List Nat),
    packAux fs vs off = .ok bs → bs.length + off = calcsizeFrom fs off := by
  induction fs with
  | nil =>
    intro vs off bs h
    cases vs with
    | nil =>
      cases h
      simp [calcsizeFrom]
    | cons v vs => cases h
  | cons t ts ih =>
    intro vs off bs h
    cases vs with
    | nil => cases h
    | cons v vs =>
      simp only [packAux] at h
      cases hpf : packField t v with
      | error e => rw [hpf] at h; cases h
      | ok enc =>
        rw [hpf] at h
        cases hrec : packAux ts vs (alignTo off t.align + t.size) with
        | error e => rw [hrec] at h; cases h
        | ok rest =>
          rw [hrec] at h
          cases h
          have h1 := ih vs (alignTo off t.align + t.size) rest hrec
          have h2 := packField_length t v enc hpf
          have h3 := alignTo_ge off t.align
          have h4 := calcsizeFrom_ge ts (alignTo off t.align + t.size)
          simp only [List.length_append, List.length_replicate, h2]
          simp only [calcsizeFrom]
          omega

lemma packAux_arity (fs : List Fmt) : ∀ (vs : List PyVal) (off : Nat) (bs : List Nat),
    packAux fs vs off = .ok bs → fs.length = vs.length := by
  induction fs with
  | nil =>
    intro vs off bs h
    cases vs with
    | nil => rfl
    | cons v vs => cases h
  | cons t ts ih =>
    intro vs off bs h
    cases vs with
    | nil => cases h
    | cons v vs =>
      simp only [packAux] at h
      cases hpf : packField t v with
      | error e => rw [hpf] at h; cases h
      | ok enc =>
        rw [hpf] at h
        cases hrec : packAux ts vs (alignTo off t.align + t.size) with
        | error e => rw [hrec] at h; cases h
        | ok rest => simpa using ih vs _ rest hrec

lemma leVal_encIntLE (w : Nat) (n : Int) :
    (leVal (encIntLE w n) : Int) = n % (2 : Int) ^ (8 * w) := by
  have hM : (0 : Int) < (2 : Int) ^ (8 * w) := by positivity
  have hnn : 0 ≤ n % (2 : Int) ^ (8 * w) := Int.emod_nonneg n (by omega)
  have hlt : n % (2 : Int) ^ (8 * w) < (2 : Int) ^ (8 * w) := Int.emod_lt_of_pos n hM
  have hcast : ((2 ^ (8 * w) : Nat) : Int) = (2 : Int) ^ (8 * w) := by push_cast; ring
  have hltN : (n % (2 : Int) ^ (8 * w)).toNat < 2 ^ (8 * w) := by
    omega
  rw [encIntLE, leVal_encLE, Nat.mod_eq_of_lt hltN]
  omega

lemma decSigned_encIntLE (w : Nat) (n : Int) (hw : 0 < w)
    (h1 : -(2 ^ (8 * w - 1)) ≤ n) (h2 : n < 2 ^ (8 * w - 1)) :
    decSigned w (encIntLE w n) = n := by
  have hsplit : 8 * w = (8 * w - 1) + 1 := by omega
  have hMH : (2 : Int) ^ (8 * w) = 2 ^ (8 * w - 1) * 2 := by
    conv_lhs => rw [hsplit]
    exact pow_succ 2 (8 * w - 1)
  have hHpos : (0 : Int) < 2 ^ (8 * w - 1) := by positivity
  unfold decSigned
  rw [leVal_encIntLE]
  rcases le_or_lt 0 n with hn | hn
  · have hmod : n % (2 : Int) ^ (8 * w) = n := Int.emod_eq_of_lt hn (by omega)
    rw [hmod, if_pos h2]
  · have hmod : n % (2 : Int) ^ (8 * w) = n + 2 ^ (8 * w) := by
      have e1 : (n + 2 ^ (8 * w)) % (2 : Int) ^ (8 * w) = n % (2 : Int) ^ (8 * w) := by
        conv_lhs => rw [show n + (2 : Int) ^ (8 * w) = n + 2 ^ (8 * w) * 1 by ring]
        rw [Int.add_mul_emod_self_left]
      have e2 : (n + 2 ^ (8 * w)) % (2 : Int) ^ (8 * w) = n + 2 ^ (8 * w) :=
        Int.emod_eq_of_lt (by omega) (by omega)
      omega
    rw [hmod, if_neg (by omega)]
    omega

lemma leVal_encIntLE_nonneg (w : Nat) (n : Int) (h1 : 0 ≤ n)
    (h2 : n < 2 ^ (8 * w)) :
    (leVal (encIntLE w n) : Int) = n := by
  rw [leVal_encIntLE]
  exact Int.emod_eq_of_lt h1 h2

lemma unpackField_packField (t : Fmt) (v : PyVal) (enc : List Nat)
    (hnf : notFloatTok t = true) (h : packField t v = .ok enc) :
    unpackField t enc = .ok (expectedField t v) := by
  cases t
  case f => simp [notFloatTok] at hnf
  case d => simp [notFloatTok] at hnf
  case boolF =>
    simp only [packField] at h
    cases h
    cases htv : truthy v <;>
      simp [unpackField, expectedField, leVal, htv]
  case s n =>
    cases v with
    | bytes b =>
      simp only [packField] at h
      cases h
      simp [unpackField, expectedField, bytesOfVal]
    | int m => simp only [packField] at h; cases h
    | bool b => simp only [packField] at h; cases h
    | str s2 => simp only [packField] at h; cases h
    | none => simp only [packField] at h; cases h
  case i =>
    obtain ⟨n, hint, hlo, hhi, henc⟩ := packIntField_inv 4 _ _ v enc h
    subst henc
    simp only [unpackField, expectedField, hint]
    rw [decSigned_encIntLE 4 n (by omega) hlo hhi]
  case q =>
    obtain ⟨n, hint, hlo, hhi, henc⟩ := packIntField_inv 8 _ _ v enc h
    subst henc
    simp only [unpackField, expectedField, hint]
    rw [decSigned_encIntLE 8 n (by omega) hlo hhi]
  case B =>
    obtain ⟨n, hint, hlo, hhi, henc⟩ := packIntField_inv 1 _ _ v enc h
    subst henc
    simp only [unpackField, expectedField, hint]
    rw [leVal_encIntLE_nonneg 1 n hlo hhi]
  case H =>
    obtain ⟨n, hint, hlo, hhi, henc⟩ := packIntField_inv 2 _ _ v enc h
    subst henc
    simp only [unpackField, expectedField, hint]
    rw [leVal_encIntLE_nonneg 2 n hlo hhi]
  case I =>
    obtain ⟨n, hint, hlo, hhi, henc⟩ := packIntField_inv 4 _ _ v enc h
    subst henc
    simp only [unpackField, expectedField, hint]
    rw [leVal_encIntLE_nonneg 4 n hlo hhi]
  case Q =>
    obtain ⟨n, hint, hlo, hhi, henc⟩ := packIntField_inv 8 _ _ v enc h
    subst henc
    simp only [unpackField, expectedField, hint]
    rw [leVal_encIntLE_nonneg 8 n hlo hhi]

lemma unpackAux_packAux (fs : List Fmt) :
    ∀ (vs : List PyVal) (off : Nat) (pre bs : List Nat),
      pre.length = off → fs.all notFloatTok = true →
      packAux fs vs off = .ok bs →
      unpackAux fs (pre ++ bs) off = .ok (List.zipWith expectedField fs vs) := by
  induction fs with
  | nil =>
    intro vs off pre bs hpre hnf h
    cases vs with
    | nil => cases h; rfl
    | cons v vs => cases h
  | cons t ts ih =>
    intro vs off pre bs hpre hnf h
    cases vs with
    | nil => cases h
    | cons v vs =>
      simp only [packAux] at h
      cases hpf : packField t v with
      | error e => rw [hpf] at h; cases h
      | ok enc =>
        rw [hpf] at h
        cases hrec : packAux ts vs (alignTo off t.align + t.size) with
        | error e => rw [hrec] at h; cases h
        | ok rest =>
          rw [hrec] at h
          cases h
          have hnf1 : notFloatTok t = true := by
            simp only [List.all_cons, Bool.and_eq_true] at hnf
            exact hnf.1
          have hnf2 : ts.all notFloatTok = true := by
            simp only [List.all_cons, Bool.and_eq_true] at hnf
            exact hnf.2
          have hoff := alignTo_ge off t.align
          have hel := packField_length t v enc hpf
          have hassoc : pre ++ (List.replicate (alignTo off t.align - off) 0 ++ enc ++ rest) =
              ((pre ++ List.replicate (alignTo off t.align - off) 0) ++ enc) ++ rest := by
            simp [List.append_assoc]
          have hlen1 : (pre ++ List.replicate (alignTo off t.align - off) 0).length =
              alignTo off t.align := by
            simp only [List.length_append, List.length_replicate, hpre]
            omega
          have hdrop : (pre ++ (List.replicate (alignTo off t.align - off) 0 ++ enc ++ rest)).drop
              (alignTo off t.align) = enc ++ rest := by
            rw [show pre ++ (List.replicate (alignTo off t.align - off) 0 ++ enc ++ rest) =
                (pre ++ List.replicate (alignTo off t.align - off) 0) ++ (enc ++ rest) from by
              simp [List.append_assoc]]
            exact List.drop_left' hlen1
          have htake : (enc ++ rest).take t.size = enc := by
            rw [← hel]
            exact List.take_left' rfl
          simp only [unpackAux, hdrop, htake,
            unpackField_packField t v enc hnf1 hpf]
          have hlen2 : ((pre ++ List.replicate (alignTo off t.align - off) 0) ++ enc).length =
              alignTo off t.align + t.size := by
            simp only [List.length_append, List.length_replicate, hpre, hel]
            omega
          have := ih vs (alignTo off t.align + t.size)
            ((pre ++ List.replicate (alignTo off t.align - off) 0) ++ enc) rest hlen2 hnf2 hrec
          rw [hassoc, this]
          rfl

lemma unpackField_ok (t : Fmt) (bs : List Nat) (h : notFloatTok t = true) :
    ∃ v, unpackField t bs = .ok v := by
  cases t <;> simp [unpackField, notFloatTok] at h ⊢

lemma unpackAux_total (fs : List Fmt) (h : fs.all notFloatTok = true) :
    ∀ (bs : List Nat) (off : Nat), ∃ vs, unpackAux fs bs off = .ok vs := by
  induction fs with
  | nil => intro bs off; exact ⟨[], rfl⟩
  | cons t ts ih =>
    intro bs off
    simp only [List.all_cons, Bool.and_eq_true] at h
    obtain ⟨v, hv⟩ := unpackField_ok t ((bs.drop (alignTo off t.align)).take t.size) h.1
    obtain ⟨vs, hvs⟩ := ih h.2 bs (alignTo off t.align + t.size)
    exact ⟨v :: vs, by simp only [unpackAux, hv, hvs]⟩

lemma tokMatchAll_cons (t : Fmt) (d : DType) (ts : List Fmt) (ds : List DType)
    (h : tokMatchAll (t :: ts) (d :: ds) = true) :
    tokMatch t d = true ∧ tokMatchAll ts ds = true := by
  simp only [tokMatchAll, List.length_cons, List.zip_cons_cons, List.all_cons,
    Bool.and_eq_true, decide_eq_true_eq] at h ⊢
  exact ⟨h.2.1, by omega, h.2.2⟩

lemma tokMatchAll_nil_right (ds : List DType) (h : tokMatchAll [] ds = true) :
    ds = [] := by
  simp only [tokMatchAll, List.length_nil, Bool.and_eq_true, decide_eq_true_eq] at h
  exact (List.eq_nil_of_length_eq_zero h.1.symm)

lemma coerce_ok_of_convert (t : Fmt) (d : DType) (v cv : PyVal)
    (hm : tokMatch t d = true) (hcv : convert_string v = .ok cv)
    (e : List Nat) (h : packField t cv = .ok e) :
    ∃ w, coerce d v = .ok w := by
  cases t
  case boolF =>
    cases d <;> simp [tokMatch] at hm
    exact ⟨_, rfl⟩
  case s n =>
    cases d <;> simp [tokMatch] at hm
    cases v with
    | str s2 =>
      simp only [convert_string] at hcv
      split at hcv
      next hall =>
        exact ⟨.bytes s2, by simp [coerce, pyStrBytes, hall]⟩
      next hall => cases hcv
    | bytes b =>
      simp only [convert_string] at hcv
      split at hcv
      next hall =>
        exact ⟨.bytes b, by simp [coerce, pyStrBytes, hall]⟩
      next hall => cases hcv
    | int m =>
      simp only [convert_string] at hcv
      cases hcv
      simp [packField] at h
    | bool b =>
      simp only [convert_string] at hcv
      cases hcv
      simp [packField] at h
    | none =>
      simp only [convert_string] at hcv
      cases hcv
      simp [packField] at h
  case f => simp [packField] at h
  case d => simp [packField] at h
  all_goals
    cases d <;> simp [tokMatch] at hm
  case i =>
    cases v with
    | int m => exact ⟨_, rfl⟩
    | bool b => exact ⟨_, rfl⟩
    | str s2 =>
      simp only [convert_string] at hcv
      split at hcv
      · cases hcv
        simp [packField, packIntField, intLike] at h
      · cases hcv
    | bytes b =>
      simp only [convert_string] at hcv
      split at hcv
      · cases hcv
        simp [packField, packIntField, intLike] at h
      · cases hcv
    | none =>
      simp only [convert_string] at hcv
      cases hcv
      simp [packField, packIntField, intLike] at h
  case q =>
    cases v with
    | int m => exact ⟨_, rfl⟩
    | bool b => exact ⟨_, rfl⟩
    | str s2 =>
      simp only [convert_string] at hcv
      split at hcv
      · cases hcv
        simp [packField, packIntField, intLike] at h
      · cases hcv
    | bytes b =>
      simp only [convert_string] at hcv
      split at hcv
      · cases hcv
        simp [packField, packIntField, intLike] at h
      · cases hcv
    | none =>
      simp only [convert_string] at hcv
      cases hcv
      simp [packField, packIntField, intLike] at h
  case B =>
    cases v with
    | int m => exact ⟨_, rfl⟩
    | bool b => exact ⟨_, rfl⟩
    | str s2 =>
      simp only [convert_string] at hcv
      split at hcv
      · cases hcv
        simp [packField, packIntField, intLike] at h
      · cases hcv
    | bytes b =>
      simp only [convert_string] at hcv
      split at hcv
      · cases hcv
        simp [packField, packIntField, intLike] at h
      · cases hcv
    | none =>
      simp only [convert_string] at hcv
      cases hcv
      simp [packField, packIntField, intLike] at h
  case H =>
    cases v with
    | int m => exact ⟨_, rfl⟩
    | bool b => exact ⟨_, rfl⟩
    | str s2 =>
      simp only [convert_string] at hcv
      split at hcv
      · cases hcv
        simp [packField, packIntField, intLike] at h
      · cases hcv
    | bytes b =>
      simp only [convert_string] at hcv
      split at hcv
      · cases hcv
        simp [packField, packIntField, intLike] at h
      · cases hcv
    | none =>
      simp only [convert_string] at hcv
      cases hcv
      simp [packField, packIntField, intLike] at h
  case I =>
    cases v with
    | int m => exact ⟨_, rfl⟩
    | bool b => exact ⟨_, rfl⟩
    | str s2 =>
      simp only [convert_string] at hcv
      split at hcv
      · cases hcv
        simp [packField, packIntField, intLike] at h
      · cases hcv
    | bytes b =>
      simp only [convert_string] at hcv
      split at hcv
      · cases hcv
        simp [packField, packIntField, intLike] at h
      · cases hcv
    | none =>
      simp only [convert_string] at hcv
      cases hcv
      simp [packField, packIntField, intLike] at h
  case Q =>
    cases v with
    | int m => exact ⟨_, rfl⟩
    | bool b => exact ⟨_, rfl⟩
    | str s2 =>
      simp only [convert_string] at hcv
      split at hcv
      · cases hcv
        simp [packField, packIntField, intLike] at h
      · cases hcv
    | bytes b =>
      simp only [convert_string] at hcv
      split at hcv
      · cases hcv
        simp [packField, packIntField, intLike] at h
      · cases hcv
    | none =>
      simp only [convert_string] at hcv
      cases hcv
      simp [packField, packIntField, intLike] at h

lemma convertRow_length (row : List PyVal) :
    ∀ cvs, convertRow row = .ok cvs → row.length = cvs.length := by
  induction row with
  | nil => intro cvs h; cases h; rfl
  | cons v vs ih =>
    intro cvs h
    simp only [convertRow] at h
    cases hc1 : convert_string v with
    | error e => rw [hc1] at h; cases h
    | ok w =>
      rw [hc1] at h
      cases hc2 : convertRow vs with
      | error e => rw [hc2] at h; cases h
      | ok ws =>
        rw [hc2] at h
        cases h
        simpa using ih ws hc2

lemma coerceRow_ok (ts : List Fmt) :
    ∀ (ds : List DType) (row cvs : List PyVal) (off : Nat) (bs : List Nat),
      tokMatchAll ts ds = true →
      convertRow row = .ok cvs →
      packAux ts cvs off = .ok bs →
      ∃ w, coerceRow ds row = .ok w := by
  induction ts with
  | nil =>
    intro ds row cvs off bs hwf hcv h
    rw [tokMatchAll_nil_right ds hwf]
    exact ⟨[], rfl⟩
  | cons t ts ih =>
    intro ds row cvs off bs hwf hcv h
    cases ds with
    | nil => simp [tokMatchAll] at hwf
    | cons d ds =>
      cases row with
      | nil =>
        simp only [convertRow] at hcv
        cases hcv
        cases h
      | cons v row =>
        obtain ⟨hm, hwf2⟩ := tokMatchAll_cons t d ts ds hwf
        simp only [convertRow] at hcv
        cases hc1 : convert_string v with
        | error e => rw [hc1] at hcv; cases hcv
        | ok cv =>
          rw [hc1] at hcv
          cases hc2 : convertRow row with
          | error e => rw [hc2] at hcv; cases hcv
          | ok cvs2 =>
            rw [hc2] at hcv
            cases hcv
            simp only [packAux] at h
            cases hpf : packField t cv with
            | error e => rw [hpf] at h; cases h
            | ok enc =>
              rw [hpf] at h
              cases hrec : packAux ts cvs2 (alignTo off t.align + t.size) with
              | error e => rw [hrec] at h; cases h
              | ok rest =>
                obtain ⟨w, hw⟩ := coerce_ok_of_convert t d v cv hm hc1 enc hpf
                obtain ⟨ws, hws⟩ := ih ds row cvs2 (alignTo off t.align + t.size) rest hwf2 hc2 hrec
                exact ⟨w :: ws, by simp only [coerceRow, hw, hws]⟩

lemma getD_take {α : Type} (d : α) (l : List α) :
    ∀ (t j : Nat), j < t → (l.take t).getD j d = l.getD j d := by
  induction l with
  | nil => intro t j hj; simp
  | cons a l ih =>
    intro t j hj
    cases t with
    | zero => omega
    | succ t =>
      cases j with
      | zero => rfl
      | succ j =>
        simp only [List.take_succ_cons, List.getD_cons_succ]
        exact ih t j (by omega)

lemma getD_drop {α : Type} (d : α) (l : List α) :
    ∀ (p j : Nat), (l.drop p).getD j d = l.getD (p + j) d := by
  induction l with
  | nil => intro p j; simp
  | cons a l ih =>
    intro p j
    cases p with
    | zero => simp
    | succ p =>
      simp only [List.drop_succ_cons]
      rw [ih p j, show p + 1 + j = (p + j) + 1 by omega, List.getD_cons_succ]

lemma getD_append_left {α : Type} (d : α) (l1 l2 : List α) :
    ∀ (k : Nat), k < l1.length → (l1 ++ l2).getD k d = l1.getD k d := by
  induction l1 with
  | nil => intro k hk; simp at hk
  | cons a t ih =>
    intro k hk
    cases k with
    | zero => rfl
    | succ k =>
      simp only [List.cons_append, List.getD_cons_succ]
      exact ih k (by simpa using Nat.lt_of_succ_lt_succ hk)

lemma getD_map_range' {α : Type} (d : α) (f : Nat → α) :
    ∀ (n s k : Nat), k < n → ((List.range' s n).map f).getD k d = f (s + k) := by
  intro n
  induction n with
  | zero => intro s k hk; omega
  | succ n ih =>
    intro s k hk
    rw [List.range'_succ, List.map_cons]
    cases k with
    | zero => rfl
    | succ k =>
      rw [List.getD_cons_succ, ih (s + 1) k (by omega),
        show s + 1 + k = s + (k + 1) by omega]

lemma drop_take_one {α : Type} (d : α) (l : List α) :
    ∀ (p : Nat), p < l.length → (l.drop p).take 1 = [l.getD p d] := by
  induction l with
  | nil => intro p hp; simp at hp
  | cons a t ih =>
    intro p hp
    cases p with
    | zero => rfl
    | succ p =>
      simp only [List.drop_succ_cons, List.getD_cons_succ]
      exact ih p (by simpa using Nat.lt_of_succ_lt_succ hp)

lemma byteTok_size (t : Fmt) (h : byteTok t = true) : t.size = 1 ∧ t.align = 1 := by
  cases t <;> simp [byteTok] at h <;> simp [Fmt.size, Fmt.align]

lemma alignTo_one (off : Nat) : alignTo off 1 = off := by
  simp [alignTo, Nat.mod_one]

lemma calcsizeFrom_bytes (fs : List Fmt) (h : fs.all byteTok = true) :
    ∀ off, calcsizeFrom fs off = off + fs.length := by
  induction fs with
  | nil => intro off; simp [calcsizeFrom]
  | cons t ts ih =>
    intro off
    simp only [List.all_cons, Bool.and_eq_true] at h
    obtain ⟨hs, ha⟩ := byteTok_size t h.1
    rw [calcsizeFrom, hs, ha, alignTo_one, ih h.2]
    simp only [List.length_cons]
    omega

lemma all_take {α : Type} (p : α → Bool) (l : List α) :
    ∀ (n : Nat), l.all p = true → (l.take n).all p = true := by
  induction l with
  | nil => intro n h; simp
  | cons a t ih =>
    intro n h
    simp only [List.all_cons, Bool.and_eq_true] at h
    cases n with
    | zero => simp
    | succ n =>
      simp only [List.take_succ_cons, List.all_cons, Bool.and_eq_true]
      exact ⟨h.1, ih n h.2⟩

lemma hasS_false_of_bytes (fs : List Fmt) (h : fs.all byteTok = true) :
    hasS fs = false := by
  induction fs with
  | nil => rfl
  | cons t ts ih =>
    simp only [List.all_cons, Bool.and_eq_true] at h
    have h2 := ih h.2
    cases t <;> simp [byteTok] at h <;> simp_all [hasS, List.any_cons]

lemma notFloat_of_bytes (fs : List Fmt) (h : fs.all byteTok = true) :
    fs.all notFloatTok = true := by
  induction fs with
  | nil => rfl
  | cons t ts ih =>
    simp only [List.all_cons, Bool.and_eq_true] at h ⊢
    refine ⟨?_, ih h.2⟩
    cases t <;> simp [byteTok] at h <;> simp [notFloatTok]

lemma unpackField_byte_single (fc : Fmt) (hfc : byteTok fc = true) (b : Nat) :
    unpackField fc [b] = .ok (decTok fc b) := by
  cases fc <;> simp [byteTok] at hfc <;>
    simp [unpackField, decTok, leVal]

lemma unpackAux_bytes (fs : List Fmt) (h : fs.all byteTok = true) :
    ∀ (bs : List Nat) (off : Nat),
      unpackAux fs bs off = .ok ((List.range fs.length).map fun j =>
        decTok (fs.getD j Fmt.B) (bs.getD (off + j) 0)) := by
  induction fs with
  | nil => intro bs off; rfl
  | cons t ts ih =>
    intro bs off
    simp only [List.all_cons, Bool.and_eq_true] at h
    obtain ⟨hs, ha⟩ := byteTok_size t h.1
    have hub : unpackField t ((bs.drop off).take 1) = .ok (decTok t (bs.getD off 0)) := by
      rcases Nat.lt_or_ge off bs.length with hlt | hge
      · rw [drop_take_one 0 bs off hlt]
        exact unpackField_byte_single t h.1 _
      · rw [List.drop_eq_nil_of_le hge, List.take_nil]
        have hD : bs.getD off 0 = 0 := List.getD_eq_default bs 0 hge
        rw [hD]
        cases t <;> simp [byteTok] at h <;> simp [unpackField, decTok, leVal]
    simp only [unpackAux, ha, alignTo_one, hs, hub, ih h.2 bs (off + 1)]
    rw [List.length_cons, List.range_succ_eq_map, List.map_cons, List.map_map]
    simp only [Function.comp_def, List.getD_cons_zero, List.getD_cons_succ, Nat.add_zero]
    refine congrArg Except.ok (congrArg (fun l => decTok t (bs.getD off 0) :: l) ?_)
    apply List.map_congr_left
    intro j hj
    have hidx : off + 1 + j = off + (j + 1) := by omega
    rw [hidx]

lemma getColLoop_succ (file : List Nat) (m nb : Nat) (fc : Fmt) (pos fuel : Nat) :
    getColLoop file m nb fc pos (fuel + 1) =
      (if ((file.drop pos).take nb).length ≠ nb then []
       else match unpackField fc ((file.drop pos).take nb) with
         | .error _ => []
         | .ok v =>
           if file.length < pos + m then [[v]]
           else [v] :: getColLoop file m nb fc (pos + m) fuel) := rfl

lemma getColLoop_eq (file : List Nat) (m : Nat) (fc : Fmt) (c N : Nat)
    (hm : 0 < m) (hc : c < m) (hfc : byteTok fc = true)
    (hlen : file.length = N * m + 1) :
    ∀ (n fuel k : Nat), k ≤ N → N - k = n → n + 2 ≤ fuel →
      getColLoop file m 1 fc (c + k * m) fuel =
        ((List.range' k (N - k)).map fun j => [decTok fc (file.getD (c + j * m) 0)]) ++
        (if c = 0 then [[decTok fc (file.getD (N * m) 0)]] else []) := by
  intro n
  induction n with
  | zero =>
    intro fuel k hk hn hf
    have hkN : k = N := by omega
    obtain ⟨f2, rfl⟩ : ∃ f2, fuel = f2 + 2 := ⟨fuel - 2, by omega⟩
    rw [hkN, Nat.sub_self]
    simp only [List.range'_zero, List.map_nil, List.nil_append]
    by_cases hc0 : c = 0
    · subst hc0
      rw [if_pos rfl]
      have hpos : 0 + N * m < file.length := by
        rw [hlen]
        generalize N * m = A
        omega
      have hslice := drop_take_one 0 file (0 + N * m) hpos
      rw [show f2 + 2 = (f2 + 1) + 1 by omega, getColLoop_succ, hslice]
      rw [if_neg (by simp)]
      simp only [unpackField_byte_single fc hfc]
      rcases (show m = 1 ∨ 2 ≤ m by omega) with hm1 | hm2
      · subst hm1
        rw [if_neg (by rw [hlen]; generalize N * 1 = A; omega)]
        rw [getColLoop_succ]
        rw [if_pos ?stop]
        case stop =>
          rw [List.length_take, List.length_drop, hlen]
          generalize N * 1 = A
          omega
        simp only [Nat.zero_add]
      · rw [if_pos (by rw [hlen]; generalize N * m = A; omega)]
        simp only [Nat.zero_add]
    · rw [if_neg hc0]
      rw [show f2 + 2 = (f2 + 1) + 1 by omega, getColLoop_succ]
      rw [if_pos ?short]
      case short =>
        rw [List.length_take, List.length_drop, hlen]
        generalize N * m = A
        omega
  | succ n ih =>
    intro fuel k hk hn hf
    have hkN : k < N := by omega
    obtain ⟨f2, rfl⟩ : ∃ f2, fuel = f2 + 1 := ⟨fuel - 1, by omega⟩
    have hmul1 : k * m + m ≤ N * m := by
      have h1 := Nat.mul_le_mul_right m (show k + 1 ≤ N by omega)
      calc k * m + m = (k + 1) * m := by ring
        _ ≤ N * m := h1
    have hpos : c + k * m < file.length := by
      rw [hlen]
      have h2 : c + k * m < m + k * m := by omega
      have h3 : m + k * m ≤ N * m := by
        calc m + k * m = k * m + m := by omega
          _ ≤ N * m := hmul1
      omega
    have hslice := drop_take_one 0 file (c + k * m) hpos
    rw [getColLoop_succ, hslice]
    rw [if_neg (by simp)]
    simp only [unpackField_byte_single fc hfc]
    by_cases hterm : file.length < c + k * m + m
    · have hk1 : k + 1 = N := by
        by_contra h2
        have h3 : k + 2 ≤ N := by omega
        have hmul2 : k * m + m + m ≤ N * m := by
          have h4 := Nat.mul_le_mul_right m h3
          calc k * m + m + m = (k + 2) * m := by ring
            _ ≤ N * m := h4
        rw [hlen] at hterm
        omega
      have hNm : k * m + m = N * m := by
        calc k * m + m = (k + 1) * m := by ring
          _ = N * m := by rw [hk1]
      have hc2 : 2 ≤ c := by
        rw [hlen] at hterm
        omega
      rw [if_pos hterm]
      have hn1 : N - k = 1 := by omega
      rw [hn1, List.range'_one, List.map_cons, List.map_nil,
        if_neg (by omega : ¬ c = 0), List.append_nil]
    · rw [if_neg hterm]
      rw [show c + k * m + m = c + (k + 1) * m by ring]
      rw [ih f2 (k + 1) (by omega) (by omega) (by omega)]
      rw [show N - k = (N - (k + 1)) + 1 by omega, List.range'_succ, List.map_cons,
        List.cons_append]

lemma iterRun_from (fmt : RawFormat) (file : List Nat) :
    ∀ (fuel k : Nat), fmt.N ≤ k + fuel →
      iterRun fmt file ⟨(k : Int) - 1⟩ fuel =
        (List.range' k (fmt.N - k)).map fun (j : Nat) => get fmt file (j : Int) := by
  intro fuel
  induction fuel with
  | zero =>
    intro k hk
    rw [show fmt.N - k = 0 by omega]
    rfl
  | succ fuel ih =>
    intro k hk
    have hnext : iterNext fmt file ⟨(k : Int) - 1⟩ =
        (if (fmt.N : Int) ≤ (k : Int) - 1 + 1 then Option.none
         else some (⟨(k : Int) - 1 + 1⟩, get fmt file ((k : Int) - 1 + 1))) := rfl
    have hstep : iterRun fmt file ⟨(k : Int) - 1⟩ (fuel + 1) =
        match iterNext fmt file ⟨(k : Int) - 1⟩ with
        | Option.none => []
        | some (s2, x) => x :: iterRun fmt file s2 fuel := rfl
    have hi : (k : Int) - 1 + 1 = (k : Int) := by ring
    rw [hstep, hnext, hi]
    by_cases hN : fmt.N ≤ k
    · rw [if_pos (by exact_mod_cast hN), show fmt.N - k = 0 by omega]
      rfl
    · rw [if_neg (by exact_mod_cast hN)]
      have hst : (⟨(k : Int)⟩ : RawStoreIter) = ⟨((k + 1 : Nat) : Int) - 1⟩ := by
        congr 1
        push_cast
        ring
      simp only []
      rw [hst, ih (k + 1) (by omega),
        show fmt.N - k = (fmt.N - (k + 1)) + 1 by omega, List.range'_succ, List.map_cons]

/-- C9: iterating over an open store yields exactly the rows
`get 0, ..., get (N - 1)` in index order, the iterator is exhausted
after `N` rows (extra fuel yields nothing more), and a fresh iterator
(`iterInit`, which is what `__iter__` returns) restarts the same
traversal.  Confirmed against `RawStoreIter.next`. -/
theorem C9_iteration (fmt : RawFormat) (file : List Nat) :
    storeIter fmt file =
      (List.range fmt.N).map (fun (k : Nat) => get fmt file (k : Int)) ∧
    (storeIter fmt file).length = fmt.N ∧
    ∀ extra, iterRun fmt file iterInit (fmt.N + 1 + extra) = storeIter fmt file := by
  have hinit : (iterInit : RawStoreIter) = ⟨((0 : Nat) : Int) - 1⟩ := by
    unfold iterInit
    congr 1
  have hmain : ∀ fuel, fmt.N ≤ fuel → iterRun fmt file iterInit fuel =
      (List.range fmt.N).map (fun (k : Nat) => get fmt file (k : Int)) := by
    intro fuel hfuel
    rw [hinit, iterRun_from fmt file fuel 0 (by omega), Nat.sub_zero,
      List.range_eq_range']
  have h1 := hmain (fmt.N + 1) (by omega)
  refine ⟨h1, ?_, ?_⟩
  · rw [show (storeIter fmt file).length =
        (iterRun fmt file iterInit (fmt.N + 1)).length from rfl, h1]
    simp [List.length_map, List.length_range]
  · intro extra
    rw [hmain (fmt.N + 1 + extra) (by omega)]
    exact h1.symm

/-- C6: the claim says every unmapped logical type is rejected with
`UnsupportedTypeError` (the source's `ValueError("Unhandled numpy
type")`) at descriptor-derivation time.  The code only raises that
error for types with no `type` attribute; a dtype instance whose
`.type` is not `numpy.string_` (e.g. `numpy.dtype("float16")`) matches
no branch of the mapping chain, silently reuses the previous column's
format character and skips its `dtypes` entry, so `MakeStore` instead
crashes with a `struct.error` arity mismatch when computing
`rowbytes` — a code bug: the "Unhandled numpy type" branch was clearly
meant to catch it. -/
theorem C6_unmapped_type :
    MakeStore [("a", NpType.int32), ("b", NpType.otherDtype "float16")] 3 =
      .error PyErr.structError ∧
    PyErr.structError ≠ PyErr.unhandledType ∧
    MakeStore [("a", NpType.otherPlain "object")] 3 = .error PyErr.unhandledType :=
  ⟨rfl, by decide, rfl⟩

/-- C8: the claim says READONCE mode yields a handle backed by a plain
sequential file handle on which `get` succeeds.  In `_openfile` the
READONCE branch assigns the plain handle to `self.f`, but the method
ends with `self.f = mmap(...) if self._f is not None else self._f`;
since READONCE never sets `self._f`, `self.f` is overwritten with
`None` and every `get` dies with `AttributeError` — a code bug. -/
theorem C8_readonce_broken (fmt : RawFormat) (file : List Nat) (idx : Int)
    (h1 : 0 ≤ idx) (h2 : idx < (fmt.N : Int)) :
    openfileBacking Mode.READONCE = Backing.pyNone ∧
    storeGet (openStore fmt file Mode.READONCE) idx = .error PyErr.attributeError := by
  refine ⟨rfl, ?_⟩
  have hg : ¬ (((openStore fmt file Mode.READONCE).fmt.N : Int) ≤ idx ∨ idx < 0) := by
    have hfmt : (openStore fmt file Mode.READONCE).fmt.N = fmt.N := rfl
    rw [hfmt]
    omega
  unfold storeGet
  rw [if_neg hg]
  rfl

/-- Witness for C8 at the one-row int32 store and index 0. -/
theorem C8_readonce_broken_witness :
    (0 : Int) ≤ 0 ∧ (0 : Int) < (fmtI.N : Int) ∧
    (openfileBacking Mode.READONCE = Backing.pyNone ∧
      storeGet (openStore fmtI fileI Mode.READONCE) 0 = .error PyErr.attributeError) :=
  ⟨by decide, by decide, C8_readonce_broken fmtI fileI 0 (by decide) (by decide)⟩

/-- C10: `appendBlankRows` with `M < 1` on an append-mode handle first
closes the mapping and file handle (`self.close()`) and only then
raises `ValueError`, leaving the handle's backing resource closed and
everything else unchanged.  Confirmed. -/
theorem C10_append_bad_M_leaves_closed (st : StoreState) (M : Int)
    (h1 : st.mode = Mode.APPEND) (h2 : M < 1) :
    appendBlankRows st M =
      (some PyErr.valueError, { st with backing := Backing.closed }) := by
  unfold appendBlankRows
  rw [h1]
  simp [h2]

/-- Witness for C10 at a concrete append-mode store and `M = 0`. -/
theorem C10_append_bad_M_leaves_closed_witness :
    (openStore fmtB3 fileB3 Mode.APPEND).mode = Mode.APPEND ∧ (0 : Int) < 1 ∧
    appendBlankRows (openStore fmtB3 fileB3 Mode.APPEND) 0 =
      (some PyErr.valueError,
        { openStore fmtB3 fileB3 Mode.APPEND with backing := Backing.closed }) :=
  ⟨rfl, by decide,
    C10_append_bad_M_leaves_closed (openStore fmtB3 fileB3 Mode.APPEND) 0 rfl (by decide)⟩

/-- Counterexample for C1: the claim says fixed-bytes fields come back
with TRAILING zero padding stripped.  `get` runs
`str(x).replace("\x00", "")`, which removes every NUL byte, interior
ones included: storing `"h\x00i"` in a 4-byte string column and
reading it back yields `"hi"`, not `"h\x00i"`. -/
theorem C1_interior_nul_cex :
    putRow fmtS fileS 0 [PyVal.str [104, 0, 105]] = .ok [104, 0, 105, 0, 0] ∧
    get fmtS [104, 0, 105, 0, 0] 0 = .ok [PyVal.str [104, 105]] ∧
    PyVal.str [104, 105] ≠ PyVal.str [104, 0, 105] :=
  ⟨rfl, rfl, by decide⟩

/-- Counterexample for C2: the claim says `rowbytes` equals the sum of
the per-column encoding sizes.  The source packs in native mode with no
byte-order prefix, so alignment padding is inserted: for columns
`[uint8, int32]` the packed row is 8 bytes, not `1 + 4 = 5`. -/
theorem C2_alignment_cex :
    MakeStore [("a", NpType.uint8), ("b", NpType.int32)] 3 =
      .ok (⟨[Fmt.B, Fmt.i], [DType.intD, DType.intD], ["a", "b"], 8, 3⟩,
        List.replicate 24 0 ++ [0]) ∧
    sumFieldSizes [Fmt.B, Fmt.i] = 5 ∧ (8 : Nat) ≠ 5 :=
  ⟨rfl, rfl, by decide⟩

/-- Counterexample for C3: the claim says the column scan has length
exactly `row_count`.  On a one-row `uint8` store the scan reads the
creation sentinel byte as a phantom second element (and each element is
a one-tuple, not a bare value): it yields 2 elements, not 1. -/
theorem C3_phantom_row_cex :
    getColByIdx fmtB fileB 0 = .ok [[PyVal.int 0], [PyVal.int 0]] ∧
    fmtB.N = 1 ∧
    ([[PyVal.int 0], [PyVal.int 0]] : List (List PyVal)).length ≠ fmtB.N :=
  ⟨rfl, rfl, by decide⟩

/-- Counterexample for C4: the claim says `putRow` on a negative index
fails with `IndexOutOfRange`.  `putRow` only checks `idx >= N`; for
`idx = -1` the bounds check passes and the call dies later with a
`ValueError` from the negative `mmap` seek. -/
theorem C4_negative_put_cex :
    putRow fmtI fileI (-1) [PyVal.int 0] = .error PyErr.valueError ∧
    PyErr.valueError ≠ PyErr.indexError :=
  ⟨rfl, by decide⟩

/-- Counterexample for C7: the claim says every coercion failure
produces the enumerated multi-column message.  The source only catches
`TypeError`; `int("abc")` raises `ValueError`, which propagates as-is
with no enumeration. -/
theorem C7_valueerror_cex :
    putRow fmtI fileI 0 [PyVal.str [97, 98, 99]] = .error PyErr.valueError ∧
    PyErr.valueError ≠ PyErr.typeErrorCols [0] :=
  ⟨rfl, by decide⟩

/-- C4 (amended): `get` rejects every out-of-range index (negative or
`>= N`) with `IndexError`, and `putRow` rejects `idx >= N` with
`IndexError`; but for negative `idx` `putRow`'s bounds check passes and
the call fails later — with an arity/coercion error or the `ValueError`
raised by the negative `mmap` seek — never with `IndexError` and never
performing a write (no `ok` result, so no byte of the file changes). -/
theorem C4_bounds (fmt : RawFormat) (file : List Nat) (idx : Int) :
    ((idx < 0 ∨ (fmt.N : Int) ≤ idx) → get fmt file idx = .error PyErr.indexError) ∧
    (∀ row, (fmt.N : Int) ≤ idx → putRow fmt file idx row = .error PyErr.indexError) ∧
    (0 < fmt.rowbytes → idx < 0 → ∀ row,
      putRow fmt file idx row ≠ .error PyErr.indexError ∧
      ∀ f2, putRow fmt file idx row ≠ .ok f2) := by
  refine ⟨?_, ?_, ?_⟩
  · intro h
    have h2 : (fmt.N : Int) ≤ idx ∨ idx < 0 := h.symm
    simp only [get, if_pos h2]
  · intro row h
    simp only [putRow, if_pos h]
  · intro hrb hneg row
    have hN0 : (0 : Int) ≤ (fmt.N : Int) := Int.natCast_nonneg fmt.N
    have hNle : ¬ (fmt.N : Int) ≤ idx := by omega
    have hrbI : (0 : Int) < (fmt.rowbytes : Int) := by exact_mod_cast hrb
    have hofs : idx * (fmt.rowbytes : Int) < 0 := mul_neg_of_neg_of_pos hneg hrbI
    by_cases harr : row.length ≠ fmt.dtypes.length
    · have hput : putRow fmt file idx row = .error PyErr.valueError := by
        simp only [putRow, if_neg hNle, if_pos harr]
      rw [hput]
      exact ⟨by simp, fun f2 => by simp⟩
    · cases hc : coerceRow fmt.dtypes row with
      | error e =>
        cases e with
        | typeErr =>
          have hput : putRow fmt file idx row =
              .error (PyErr.typeErrorCols (failingCols fmt.dtypes row)) := by
            simp only [putRow, if_neg hNle, if_neg harr, hc]
          rw [hput]
          exact ⟨by simp, fun f2 => by simp⟩
        | valueErr =>
          have hput : putRow fmt file idx row = .error PyErr.valueError := by
            simp only [putRow, if_neg hNle, if_neg harr, hc]
          rw [hput]
          exact ⟨by simp, fun f2 => by simp⟩
      | ok w =>
        have hput : putRow fmt file idx row = .error PyErr.valueError := by
          simp only [putRow, if_neg hNle, if_neg harr, hc, if_pos hofs]
        rw [hput]
        exact ⟨by simp, fun f2 => by simp⟩

/-- Witness for C4 on a concrete one-column store: both `get` sides,
the `putRow` upper bound, and the negative-index `putRow` behaviour. -/
theorem C4_bounds_witness :
    get fmtI fileI (-1) = .error PyErr.indexError ∧
    get fmtI fileI 5 = .error PyErr.indexError ∧
    putRow fmtI fileI 5 [PyVal.int 0] = .error PyErr.indexError ∧
    putRow fmtI fileI (-1) [PyVal.int 0] ≠ .error PyErr.indexError :=
  ⟨(C4_bounds fmtI fileI (-1)).1 (Or.inl (by decide)),
    (C4_bounds fmtI fileI 5).1 (Or.inr (by decide)),
    (C4_bounds fmtI fileI 5).2.1 [PyVal.int 0] (by decide),
    ((C4_bounds fmtI fileI (-1)).2.2 (by decide) (by decide) [PyVal.int 0]).1⟩

lemma zip_get? (l1 : List DType) :
    ∀ (l2 : List PyVal) (k : Nat) (d : DType) (v : PyVal),
      (l1.zip l2).get? k = some (d, v) ↔
        l1.get? k = some d ∧ l2.get? k = some v := by
  induction l1 with
  | nil => intro l2 k d v; simp
  | cons a t ih =>
    intro l2 k d v
    cases l2 with
    | nil => simp
    | cons b t2 =>
      cases k with
      | zero => simp [List.zip_cons_cons, Prod.ext_iff]
      | succ k => simpa [List.zip_cons_cons] using ih t2 k d v

lemma mem_failingColsAux (l : List (DType × PyVal)) :
    ∀ (i j : Nat), j ∈ failingColsAux i l ↔
      ∃ k dv, l.get? k = some dv ∧ j = i + k ∧ coerceFails dv.1 dv.2 = true := by
  induction l with
  | nil =>
    intro i j
    simp [failingColsAux]
  | cons dv0 rest ih =>
    intro i j
    obtain ⟨d0, v0⟩ := dv0
    by_cases hfail : coerceFails d0 v0 = true
    · rw [failingColsAux, if_pos hfail]
      simp only [List.mem_cons, ih (i + 1) j]
      constructor
      · rintro (rfl | ⟨k, dv, hget, rfl, hf⟩)
        · exact ⟨0, (d0, v0), rfl, by omega, hfail⟩
        · exact ⟨k + 1, dv, by simpa using hget, by omega, hf⟩
      · rintro ⟨k, dv, hget, rfl, hf⟩
        cases k with
        | zero =>
          left
          omega
        | succ k =>
          right
          exact ⟨k, dv, by simpa using hget, by omega, hf⟩
    · rw [failingColsAux, if_neg hfail]
      rw [ih (i + 1) j]
      constructor
      · rintro ⟨k, dv, hget, rfl, hf⟩
        exact ⟨k + 1, dv, by simpa using hget, by omega, hf⟩
      · rintro ⟨k, dv, hget, rfl, hf⟩
        cases k with
        | zero =>
          exfalso
          simp only [List.get?_cons_zero, Option.some.injEq] at hget
          rw [← hget] at hf
          exact hfail hf
        | succ k =>
          exact ⟨k, dv, by simpa using hget, by omega, hf⟩

/-- C7 (amended): when the first failing coercion raises `TypeError`
(e.g. a `None` in an integer column), `putRow` raises the rebuilt
`TypeError` whose message enumerates EXACTLY the columns whose coercion
fails — every failing column, not just the first.  (When the first
failure raises `ValueError` instead, e.g. `int("abc")`, the error
propagates with no enumeration; see the counterexample.) -/
theorem C7_enumeration (fmt : RawFormat) (file : List Nat) (idx : Int)
    (row : List PyVal)
    (h1 : ¬ (fmt.N : Int) ≤ idx) (h2 : row.length = fmt.dtypes.length)
    (h3 : coerceRow fmt.dtypes row = .error CoerceErr.typeErr) :
    putRow fmt file idx row =
      .error (.typeErrorCols (failingCols fmt.dtypes row)) ∧
    ∀ j, j ∈ failingCols fmt.dtypes row ↔
      ∃ d v, fmt.dtypes.get? j = some d ∧ row.get? j = some v ∧
        coerceFails d v = true := by
  constructor
  · have h2n : ¬ row.length ≠ fmt.dtypes.length := by omega
    simp only [putRow, if_neg h1, if_neg h2n, h3]
  · intro j
    rw [failingCols, mem_failingColsAux (fmt.dtypes.zip row) 0 j]
    constructor
    · rintro ⟨k, dv, hget, rfl, hf⟩
      obtain ⟨d, v⟩ := dv
      rw [zip_get? fmt.dtypes row k d v] at hget
      exact ⟨d, v, by simpa using hget.1, by simpa using hget.2, hf⟩
    · rintro ⟨d, v, hd, hv, hf⟩
      exact ⟨j, (d, v), (zip_get? fmt.dtypes row j d v).mpr ⟨hd, hv⟩, by omega, hf⟩

/-- Witness for C7 at a two-column `int32` store and row
`(None, "abc")`: the first failure is a `TypeError`, and both failing
columns are enumerated. -/
theorem C7_enumeration_witness :
    coerceRow fmtII.dtypes [PyVal.none, PyVal.str [97, 98, 99]] =
      .error CoerceErr.typeErr ∧
    putRow fmtII fileII 0 [PyVal.none, PyVal.str [97, 98, 99]] =
      .error (PyErr.typeErrorCols [0, 1]) := by
  refine ⟨rfl, ?_⟩
  have h := (C7_enumeration fmtII fileII 0 [PyVal.none, PyVal.str [97, 98, 99]]
    (by decide) (by decide) rfl).1
  exact h.trans (congrArg Except.error (congrArg PyErr.typeErrorCols (by decide)))

lemma npMap_tokMatch (t : NpType) (tok : Fmt) (dt : DType)
    (h : npMap t = some (tok, dt)) : tokMatch tok dt = true := by
  cases t <;> cases h <;> rfl

lemma mapColsAux_wf (cols : List (String × NpType)) :
    ∀ (stale : Option Fmt) (ns : List String) (ts : List Fmt) (ds : List DType),
      mapColsAux cols stale = .ok (ns, ts, ds) →
      ds.length ≤ ts.length ∧
        (ts.length = ds.length → tokMatchAll ts ds = true) := by
  induction cols with
  | nil =>
    intro stale ns ts ds h
    simp only [mapColsAux] at h
    cases h
    simp [tokMatchAll]
  | cons c rest ih =>
    intro stale ns ts ds h
    obtain ⟨name, t⟩ := c
    cases hnp : npMap t with
    | some p =>
      obtain ⟨tok, dt⟩ := p
      simp only [mapColsAux, hnp] at h
      cases hrec : mapColsAux rest (some tok) with
      | error e =>
        simp only [hrec] at h
        exact Except.noConfusion h
      | ok tri =>
        obtain ⟨ns2, ts2, ds2⟩ := tri
        simp only [hrec] at h
        cases h
        obtain ⟨hle, hall⟩ := ih (some tok) ns2 ts2 ds2 hrec
        constructor
        · simpa using Nat.succ_le_succ hle
        · intro hlen
          have hlen2 : ts2.length = ds2.length := by simpa using hlen
          have h2 := hall hlen2
          simp only [tokMatchAll, Bool.and_eq_true, decide_eq_true_eq] at h2 ⊢
          simp only [List.length_cons, List.zip_cons_cons, List.all_cons,
            Bool.and_eq_true]
          exact ⟨by omega, npMap_tokMatch t tok dt hnp, h2.2⟩
    | none =>
      simp only [mapColsAux, hnp] at h
      cases t
      case otherPlain tag => cases h
      case otherDtype tag =>
        cases stale with
        | none => cases h
        | some tk =>
          cases hrec : mapColsAux rest (some tk) with
          | error e =>
            simp only [hrec] at h
            exact Except.noConfusion h
          | ok tri =>
            obtain ⟨ns2, ts2, ds2⟩ := tri
            simp only [hrec] at h
            cases h
            obtain ⟨hle, hall⟩ := ih (some tk) ns2 ts2 ds hrec
            constructor
            · simpa using Nat.le_succ_of_le hle
            · intro hlen
              exfalso
              simp only [List.length_cons] at hlen
              omega
      all_goals simp [npMap] at hnp

lemma MakeStore_ok (cols : List (String × NpType)) (N : Nat) (fmt : RawFormat)
    (file0 : List Nat) (h : MakeStore cols N = .ok (fmt, file0)) :
    fmt.rowbytes = calcsize fmt.pack_format ∧ fmt.N = N ∧
    file0 = List.replicate (fmt.rowbytes * N) 0 ++ [0] ∧
    tokMatchAll fmt.pack_format fmt.dtypes = true := by
  simp only [MakeStore] at h
  split at h
  · cases h
  · cases hmc : mapColsAux cols Option.none with
    | error e =>
      simp only [hmc] at h
      exact Except.noConfusion h
    | ok tri =>
      obtain ⟨names, types, ds⟩ := tri
      simp only [hmc] at h
      split at h
      · cases h
      · next hne =>
        cases h
        exact ⟨rfl, rfl, rfl,
          (mapColsAux_wf cols Option.none names types ds hmc).2 (by omega)⟩

lemma putRow_ok_length (fmt : RawFormat) (file : List Nat) (idx : Int)
    (row : List PyVal) (file2 : List Nat)
    (h : putRow fmt file idx row = .ok file2) : file2.length = file.length := by
  by_cases h1 : (fmt.N : Int) ≤ idx
  · simp only [putRow, if_pos h1] at h
    exact Except.noConfusion h
  · by_cases h2 : row.length ≠ fmt.dtypes.length
    · simp only [putRow, if_neg h1, if_pos h2] at h
      exact Except.noConfusion h
    · cases hc : coerceRow fmt.dtypes row with
      | error e =>
        cases e <;> simp only [putRow, if_neg h1, if_neg h2, hc] at h <;>
          exact Except.noConfusion h
      | ok w =>
        by_cases h4 : idx * (fmt.rowbytes : Int) < 0
        · simp only [putRow, if_neg h1, if_neg h2, hc, if_pos h4] at h
          exact Except.noConfusion h
        · by_cases h5 : (file.length : Int) < idx * (fmt.rowbytes : Int)
          · simp only [putRow, if_neg h1, if_neg h2, hc, if_neg h4, if_pos h5] at h
            exact Except.noConfusion h
          · cases hcv : convertRow row with
            | error e =>
              simp only [putRow, if_neg h1, if_neg h2, hc, if_neg h4, if_neg h5, hcv] at h
              exact Except.noConfusion h
            | ok cvs =>
              cases hp : pack fmt.pack_format cvs with
              | error e =>
                simp only [putRow, if_neg h1, if_neg h2, hc, if_neg h4, if_neg h5, hcv,
                  hp] at h
                exact Except.noConfusion h
              | ok bs =>
                by_cases h6 : file.length < (idx * (fmt.rowbytes : Int)).toNat + bs.length
                · simp only [putRow, if_neg h1, if_neg h2, hc, if_neg h4, if_neg h5, hcv,
                    hp, if_pos h6] at h
                  exact Except.noConfusion h
                · simp only [putRow, if_neg h1, if_neg h2, hc, if_neg h4, if_neg h5, hcv,
                    hp, if_neg h6] at h
                  cases h
                  rw [fileWriteAt_length]
                  omega

lemma appendBlankRows_ok (st : StoreState) (M : Int) (st2 : StoreState)
    (h : appendBlankRows st M = (Option.none, st2))
    (hl : st.file.length = st.fmt.rowbytes * st.fmt.N + 1) :
    st2.file.length = st2.fmt.rowbytes * st2.fmt.N + 1 ∧
    st2.fmt.rowbytes = st.fmt.rowbytes ∧
    st2.fmt.N = st.fmt.N + M.toNat ∧
    st2.fmt.pack_format = st.fmt.pack_format ∧
    st2.fmt.dtypes = st.fmt.dtypes ∧
    st2.file = fileWriteAt st.file (st.fmt.rowbytes * (st.fmt.N + M.toNat)) [0] ∧
    st.mode = Mode.APPEND ∧ 1 ≤ M := by
  simp only [appendBlankRows] at h
  split at h
  · exact absurd h (by simp)
  · next hmode =>
    split at h
    · exact absurd h (by simp)
    · next hM =>
      simp only [Prod.mk.injEq] at h
      obtain ⟨-, hst2⟩ := h
      subst hst2
      refine ⟨?_, rfl, rfl, rfl, rfl, rfl, not_ne_iff.mp hmode, by omega⟩
      rw [fileWriteAt_length, hl]
      simp only [List.length_cons, List.length_nil]
      have hle : st.fmt.rowbytes * st.fmt.N ≤
          st.fmt.rowbytes * (st.fmt.N + M.toNat) :=
        Nat.mul_le_mul_left _ (Nat.le_add_right _ _)
      obtain ⟨A, hA⟩ : ∃ A, st.fmt.rowbytes * st.fmt.N = A := ⟨_, rfl⟩
      obtain ⟨B, hB⟩ : ∃ B, st.fmt.rowbytes * (st.fmt.N + M.toNat) = B := ⟨_, rfl⟩
      rw [hA, hB] at hle ⊢
      omega

/-- C2 (amended): `rowbytes` equals `struct.calcsize` of the format in
NATIVE mode — the per-column sizes plus any alignment padding between
members, which exceeds the plain sum of sizes whenever padding is
needed (see the counterexample) — and the data file's length is
`rowbytes * N + 1`: the product plus the single sentinel byte written
at creation (the "implementation padding" the spec allows).  A
successful `putRow` never changes the file length, and a successful
`appendBlankRows` restores `length = rowbytes * N + 1` for the new
`N`. -/
theorem C2_layout (cols : List (String × NpType)) (N : Nat) (fmt : RawFormat)
    (file0 : List Nat) (hmk : MakeStore cols N = .ok (fmt, file0)) :
    fmt.rowbytes = calcsize fmt.pack_format ∧
    file0.length = fmt.rowbytes * fmt.N + 1 ∧
    (∀ file idx row file2, putRow fmt file idx row = .ok file2 →
      file2.length = file.length) ∧
    (∀ st : StoreState, ∀ (M : Int) (st2 : StoreState), st.fmt = fmt →
      st.file.length = fmt.rowbytes * fmt.N + 1 →
      appendBlankRows st M = (Option.none, st2) →
      st2.file.length = st2.fmt.rowbytes * st2.fmt.N + 1) := by
  obtain ⟨hrb, hN, hfile, hwf⟩ := MakeStore_ok cols N fmt file0 hmk
  refine ⟨hrb, ?_, ?_, ?_⟩
  · rw [hfile, hN]
    simp [List.length_append, List.length_replicate]
  · intro file idx row file2 hput
    exact putRow_ok_length fmt file idx row file2 hput
  · intro st M st2 hstf hstl happ
    have hl : st.file.length = st.fmt.rowbytes * st.fmt.N + 1 := by
      rw [hstf]
      exact hstl
    exact (appendBlankRows_ok st M st2 happ hl).1

/-- Witness for C2 on the concrete store `[("a", uint8), ("b", int32)]`
with three rows. -/
theorem C2_layout_witness :
    MakeStore [("a", NpType.uint8), ("b", NpType.int32)] 3 = .ok (fmtBI, fileBI) ∧
    fmtBI.rowbytes = calcsize fmtBI.pack_format ∧
    fileBI.length = fmtBI.rowbytes * fmtBI.N + 1 := by
  have h := C2_layout [("a", NpType.uint8), ("b", NpType.int32)] 3 fmtBI fileBI rfl
  exact ⟨rfl, h.1, h.2.1⟩

lemma appendBlankRows_success (st : StoreState) (M : Int)
    (hmode : st.mode = Mode.APPEND) (hM : 1 ≤ M) :
    appendBlankRows st M =
      (Option.none,
        ⟨{ st.fmt with N := st.fmt.N + M.toNat },
          fileWriteAt st.file (st.fmt.rowbytes * (st.fmt.N + M.toNat)) [0],
          st.mode, openfileBacking st.mode⟩) := by
  simp only [appendBlankRows, hmode]
  rw [if_neg (by simp), if_neg (by omega)]

/-- C5: growing an append-mode store by `M >= 1` blank rows succeeds,
increases `N` by exactly `M`, leaves every pre-existing row byte
(and hence `get i` for old `i`) unchanged, and every row index of the
grown store — including the new blank rows — is readable by `get`
without error.  Confirmed (for stores without float columns, whose
payload decoding is outside the embedding). -/
theorem C5_growth (st : StoreState) (M : Int)
    (hmode : st.mode = Mode.APPEND) (hM : 1 ≤ M)
    (hrb : st.fmt.rowbytes = calcsize st.fmt.pack_format)
    (hrb1 : 0 < st.fmt.rowbytes)
    (hnf : st.fmt.pack_format.all notFloatTok = true)
    (hlen : st.file.length = st.fmt.rowbytes * st.fmt.N + 1) :
    (appendBlankRows st M).1 = Option.none ∧
    (((appendBlankRows st M).2.fmt.N : Int) = (st.fmt.N : Int) + M) ∧
    ((appendBlankRows st M).2.file.take (st.fmt.rowbytes * st.fmt.N) =
      st.file.take (st.fmt.rowbytes * st.fmt.N)) ∧
    (∀ i : Nat, i < st.fmt.N →
      get (appendBlankRows st M).2.fmt (appendBlankRows st M).2.file (i : Int) =
        get st.fmt st.file (i : Int)) ∧
    (∀ i : Nat, i < (appendBlankRows st M).2.fmt.N →
      ∃ r, get (appendBlankRows st M).2.fmt (appendBlankRows st M).2.file (i : Int) =
        .ok r) := by
  rw [appendBlankRows_success st M hmode hM]
  obtain ⟨⟨pf, dts, cns, rb, N0⟩, sfile, smode, sback⟩ := st
  dsimp only at hrb hrb1 hnf hlen ⊢
  set Mt := M.toNat with hMtdef
  have hMt1 : 1 ≤ Mt := by omega
  have hAB : rb * N0 + rb ≤ rb * (N0 + Mt) := by
    have h1 := Nat.mul_le_mul_left rb (show N0 + 1 ≤ N0 + Mt by omega)
    calc rb * N0 + rb = rb * (N0 + 1) := by ring
      _ ≤ rb * (N0 + Mt) := h1
  have hlen2 : (fileWriteAt sfile (rb * (N0 + Mt)) [0]).length =
      rb * (N0 + Mt) + 1 := by
    rw [fileWriteAt_length, hlen]
    simp only [List.length_cons, List.length_nil]
    obtain ⟨A, hA⟩ : ∃ A, rb * N0 = A := ⟨_, rfl⟩
    obtain ⟨B, hB⟩ : ∃ B, rb * (N0 + Mt) = B := ⟨_, rfl⟩
    rw [hA, hB] at hAB ⊢
    omega
  have htake : (fileWriteAt sfile (rb * (N0 + Mt)) [0]).take (rb * N0) =
      sfile.take (rb * N0) :=
    fileWriteAt_take sfile (rb * (N0 + Mt)) [0] (rb * N0)
      (by omega) (by rw [hlen]; omega)
  refine ⟨rfl, by show ((N0 + Mt : Nat) : Int) = (N0 : Int) + M; omega, htake, ?_, ?_⟩
  · intro i hi
    have hmuli : i * rb + rb ≤ rb * N0 := by
      have h1 := Nat.mul_le_mul_right rb (show i + 1 ≤ N0 by omega)
      calc i * rb + rb = (i + 1) * rb := by ring
        _ ≤ N0 * rb := h1
        _ = rb * N0 := Nat.mul_comm _ _
    have hg1 : ¬ (((N0 + Mt : Nat) : Int) ≤ (i : Int) ∨ (i : Int) < 0) := by omega
    have hg2 : ¬ (((N0 : Nat) : Int) ≤ (i : Int) ∨ (i : Int) < 0) := by omega
    simp only [get, hg1, hg2, if_false, Int.toNat_natCast]
    have hs1 : ¬ (fileWriteAt sfile (rb * (N0 + Mt)) [0]).length < i * rb := by
      rw [hlen2]
      obtain ⟨A, hA⟩ : ∃ A, rb * N0 = A := ⟨_, rfl⟩
      obtain ⟨B, hB⟩ : ∃ B, rb * (N0 + Mt) = B := ⟨_, rfl⟩
      obtain ⟨C, hC⟩ : ∃ C, i * rb = C := ⟨_, rfl⟩
      simp only [hA, hB, hC] at hmuli hAB ⊢
      omega
    have hs2 : ¬ sfile.length < i * rb := by
      rw [hlen]
      obtain ⟨A, hA⟩ : ∃ A, rb * N0 = A := ⟨_, rfl⟩
      obtain ⟨C, hC⟩ : ∃ C, i * rb = C := ⟨_, rfl⟩
      simp only [hA, hC] at hmuli ⊢
      omega
    rw [if_neg hs1, if_neg hs2]
    have hslice : ((fileWriteAt sfile (rb * (N0 + Mt)) [0]).drop (i * rb)).take rb =
        (sfile.drop (i * rb)).take rb :=
      slice_eq_of_take_eq _ _ (rb * N0) (i * rb) rb htake hmuli
    rw [hslice]
  · intro i hi
    have hi2 : i < N0 + Mt := hi
    have hmuli : i * rb + rb ≤ rb * (N0 + Mt) := by
      have h1 := Nat.mul_le_mul_right rb (show i + 1 ≤ N0 + Mt by omega)
      calc i * rb + rb = (i + 1) * rb := by ring
        _ ≤ (N0 + Mt) * rb := h1
        _ = rb * (N0 + Mt) := Nat.mul_comm _ _
    have hg1 : ¬ (((N0 + Mt : Nat) : Int) ≤ (i : Int) ∨ (i : Int) < 0) := by omega
    simp only [get, Int.toNat_natCast]
    rw [if_neg hg1]
    have hs1 : ¬ (fileWriteAt sfile (rb * (N0 + Mt)) [0]).length < i * rb := by
      rw [hlen2]
      obtain ⟨B, hB⟩ : ∃ B, rb * (N0 + Mt) = B := ⟨_, rfl⟩
      obtain ⟨C, hC⟩ : ∃ C, i * rb = C := ⟨_, rfl⟩
      simp only [hB, hC] at hmuli ⊢
      omega
    rw [if_neg hs1]
    have hlenc : (((fileWriteAt sfile (rb * (N0 + Mt)) [0]).drop (i * rb)).take
        rb).length = calcsize pf := by
      rw [List.length_take, List.length_drop, hlen2, ← hrb]
      obtain ⟨B, hB⟩ : ∃ B, rb * (N0 + Mt) = B := ⟨_, rfl⟩
      obtain ⟨C, hC⟩ : ∃ C, i * rb = C := ⟨_, rfl⟩
      simp only [hB, hC] at hmuli ⊢
      omega
    obtain ⟨vs, hvs⟩ := unpackAux_total pf hnf
      (((fileWriteAt sfile (rb * (N0 + Mt)) [0]).drop (i * rb)).take rb) 0
    rw [show unpack pf (((fileWriteAt sfile (rb * (N0 + Mt)) [0]).drop (i * rb)).take rb)
        = .ok vs from by rw [unpack, if_pos hlenc]; exact hvs]
    exact ⟨_, rfl⟩

/-- Witness for C5: growing the three-row `uint8` store by 2 yields a
five-row store whose row 4 is readable — the spec's own scenario. -/
theorem C5_growth_witness :
    (appendBlankRows (openStore fmtB3 fileB3 Mode.APPEND) 2).1 = Option.none ∧
    (((appendBlankRows (openStore fmtB3 fileB3 Mode.APPEND) 2).2.fmt.N : Int) = 3 + 2) ∧
    ∃ r, get (appendBlankRows (openStore fmtB3 fileB3 Mode.APPEND) 2).2.fmt
      (appendBlankRows (openStore fmtB3 fileB3 Mode.APPEND) 2).2.file (4 : Int) =
        .ok r := by
  have h := C5_growth (openStore fmtB3 fileB3 Mode.APPEND) 2 rfl (by decide) rfl
    (by decide) (by decide) rfl
  exact ⟨h.1, h.2.1, h.2.2.2.2 4 (by decide)⟩

lemma getD_of_get? {α : Type} (d : α) (l : List α) :
    ∀ (n : Nat) (a : α), l.get? n = some a → l.getD n d = a := by
  induction l with
  | nil => intro n a h; cases h
  | cons x t ih =>
    intro n a h
    cases n with
    | zero =>
      simp only [List.get?_cons_zero, Option.some.injEq] at h
      rw [List.getD_cons_zero, h]
    | succ n =>
      simp only [List.get?_cons_succ] at h
      rw [List.getD_cons_succ]
      exact ih n a h

/-- C3 (amended): for a store whose columns are all single-byte types
(`uint8`/`bool`), `getColByIdx c` yields ONE-ELEMENT TUPLES (the
unpacked 1-tuples the generator yields), the `k`-th of which, for
`k < N`, contains exactly the `c`-th field of `get k`; the scan ends by
itself (a clean `StopIteration`), but its length is `N` only for
`c ≥ 1`: for `c = 0` it yields `N + 1` elements, the extra one decoded
from the sentinel byte `MakeStore` wrote past the last row. -/
theorem C3_column_scan (fmt : RawFormat) (file : List Nat) (c : Nat)
    (hb : fmt.pack_format.all byteTok = true)
    (hrb : fmt.rowbytes = fmt.pack_format.length)
    (hc : c < fmt.pack_format.length)
    (hN : 1 ≤ fmt.N)
    (hlen : file.length = fmt.rowbytes * fmt.N + 1) :
    ∃ out, getColByIdx fmt file c = .ok out ∧
      out.length = fmt.N + (if c = 0 then 1 else 0) ∧
      ∀ k, k < fmt.N → ∃ row, get fmt file (k : Int) = .ok row ∧
        out.getD k [] = [row.getD c PyVal.none] := by
  obtain ⟨fs, dts, cns, rb, N⟩ := fmt
  dsimp only at hb hrb hc hN hlen ⊢
  subst hrb
  set rb := fs.length with hrbdef
  have hS : hasS fs = false := hasS_false_of_bytes fs hb
  have hrb0 : ¬ rb = 0 := by omega
  cases hq : fs.get? c with
  | none =>
    exfalso
    have := List.get?_eq_none.mp hq
    omega
  | some fc =>
    have hfc : byteTok fc = true :=
      List.all_eq_true.mp hb fc (List.get?_mem hq)
    obtain ⟨hsz, hal⟩ := byteTok_size fc hfc
    have hcol : calcsize (fs.take c) = c := by
      rw [calcsize, calcsizeFrom_bytes (fs.take c) (all_take byteTok fs c hb) 0,
        List.length_take]
      omega
    have hNrb : rb ≤ rb * N := Nat.le_mul_of_pos_right rb (by omega)
    have hseek0 : ¬ file.length < calcsize (fs.take c) := by
      rw [hcol, hlen]
      obtain ⟨A, hA⟩ : ∃ A, rb * N = A := ⟨_, rfl⟩
      simp only [hA] at hNrb ⊢
      omega
    have hloop := getColLoop_eq file rb fc c N (by omega) (by omega) hfc
      (by rw [hlen, Nat.mul_comm]) N (file.length + 2) 0 (by omega) (by omega)
      (by
        rw [hlen]
        obtain ⟨A, hA⟩ : ∃ A, rb * N = A := ⟨_, rfl⟩
        have hNA : N ≤ A := by
          rw [← hA]
          exact Nat.le_mul_of_pos_left N (by omega)
        simp only [hA] at hNA ⊢
        omega)
    rw [show c + 0 * rb = c by ring] at hloop
    have hout : getColByIdx ⟨fs, dts, cns, rb, N⟩ file c =
        .ok (((List.range' 0 (N - 0)).map fun j =>
            [decTok fc (file.getD (c + j * rb) 0)]) ++
          (if c = 0 then [[decTok fc (file.getD (N * rb) 0)]] else [])) := by
      simp only [getColByIdx, hS, Bool.false_eq_true, if_false, hq, hsz]
      rw [if_neg hrb0, if_neg hseek0, hcol, hloop]
    rw [Nat.sub_zero] at hout
    refine ⟨_, hout, ?_, ?_⟩
    · simp only [List.length_append, List.length_map, List.length_range']
      by_cases hc0 : c = 0 <;> simp [hc0]
    · intro k hk
      have hmulk : k * rb + rb ≤ rb * N := by
        have h1 := Nat.mul_le_mul_right rb (show k + 1 ≤ N by omega)
        calc k * rb + rb = (k + 1) * rb := by ring
          _ ≤ N * rb := h1
          _ = rb * N := Nat.mul_comm _ _
      have hg : ¬ ((N : Int) ≤ (k : Int) ∨ (k : Int) < 0) := by omega
      have hseek : ¬ file.length < k * rb := by
        rw [hlen]
        obtain ⟨A, hA⟩ : ∃ A, rb * N = A := ⟨_, rfl⟩
        obtain ⟨C, hC⟩ : ∃ C, k * rb = C := ⟨_, rfl⟩
        simp only [hA, hC] at hmulk ⊢
        omega
      have hcalc : calcsize fs = rb := by
        rw [calcsize, calcsizeFrom_bytes fs hb 0]
        omega
      have hslicelen : ((file.drop (k * rb)).take rb).length = calcsize fs := by
        rw [hcalc, List.length_take, List.length_drop, hlen]
        obtain ⟨A, hA⟩ : ∃ A, rb * N = A := ⟨_, rfl⟩
        obtain ⟨C, hC⟩ : ∃ C, k * rb = C := ⟨_, rfl⟩
        simp only [hA, hC] at hmulk ⊢
        omega
      have hunpack : unpack fs ((file.drop (k * rb)).take rb) =
          .ok ((List.range fs.length).map fun j =>
            decTok (fs.getD j Fmt.B) (((file.drop (k * rb)).take rb).getD (0 + j) 0)) := by
        rw [unpack, if_pos hslicelen]
        exact unpackAux_bytes fs hb _ 0
      have hget : get ⟨fs, dts, cns, rb, N⟩ file (k : Int) =
          .ok ((List.range fs.length).map fun j =>
            decTok (fs.getD j Fmt.B) (((file.drop (k * rb)).take rb).getD (0 + j) 0)) := by
        simp only [get, Int.toNat_natCast]
        rw [if_neg hg, if_neg hseek, hunpack]
        simp only [hS, Bool.false_eq_true, if_false]
      refine ⟨_, hget, ?_⟩
      rw [getD_append_left [] _ _ k
        (by simp only [List.length_map, List.length_range']; omega)]
      rw [getD_map_range' [] _ N 0 k hk]
      rw [show (0 : Nat) + k = k by omega]
      have hrowfield : ((List.range fs.length).map fun j =>
          decTok (fs.getD j Fmt.B) (((file.drop (k * rb)).take rb).getD (0 + j) 0)).getD
            c PyVal.none =
          decTok fc (file.getD (k * rb + c) 0) := by
        rw [List.range_eq_range', getD_map_range' PyVal.none _ fs.length 0 c hc]
        simp only [Nat.zero_add]
        rw [getD_of_get? Fmt.B fs c fc hq]
        rw [getD_take 0 _ rb c (by omega), getD_drop 0 file (k * rb) c]
      rw [hrowfield, show c + k * rb = k * rb + c by omega]

/-- Witness for C3 on the three-row single-`uint8`-column store at
column 0: the scan succeeds and yields `N + 1` elements. -/
theorem C3_column_scan_witness :
    1 ≤ fmtB3.N ∧
    ∃ out, getColByIdx fmtB3 fileB3 0 = .ok out ∧ out.length = fmtB3.N + 1 := by
  obtain ⟨out, h1, h2, h3⟩ := C3_column_scan fmtB3 fileB3 0 (by decide) (by decide)
    (by decide) (by decide) (by decide)
  exact ⟨by decide, out, h1, by simpa using h2⟩

/-- C1 (amended): on a store with a valid descriptor and no float
columns, for every in-range index and every row whose string/bytes
values are pure ASCII (so Python 2's `str.encode` conversion succeeds,
yielding `cvs`) and whose converted values the packer accepts, `putRow`
writes the packed row in place and `get` returns the unpacked row:
integer and boolean fields equal the coerced values, and each
fixed-bytes field equals the stored value truncated to the column
width with ALL zero bytes removed — interior zeros as well as the
trailing padding (`expectedGet` spells this out; the claim's "trailing
padding only" fails, see the counterexample). -/
theorem C1_roundtrip (fmt : RawFormat) (file : List Nat) (i : Nat)
    (row cvs : List PyVal) (bs : List Nat)
    (hwf : tokMatchAll fmt.pack_format fmt.dtypes = true)
    (hrb : fmt.rowbytes = calcsize fmt.pack_format)
    (hnf : fmt.pack_format.all notFloatTok = true)
    (hlen : file.length = fmt.rowbytes * fmt.N + 1)
    (hi : i < fmt.N)
    (hcv : convertRow row = .ok cvs)
    (hpk : pack fmt.pack_format cvs = .ok bs) :
    putRow fmt file (i : Int) row = .ok (fileWriteAt file (i * fmt.rowbytes) bs) ∧
    get fmt (fileWriteAt file (i * fmt.rowbytes) bs) (i : Int) =
      .ok (expectedGet fmt.pack_format cvs) := by
  obtain ⟨fs, dts, cns, rb, N⟩ := fmt
  dsimp only at hwf hrb hnf hlen hi hcv hpk ⊢
  simp only [calcsize] at hrb
  have harity := packAux_arity fs cvs 0 bs hpk
  have hlenfs : fs.length = dts.length := by
    simp only [tokMatchAll, Bool.and_eq_true, decide_eq_true_eq] at hwf
    exact hwf.1
  have hlencv := convertRow_length row cvs hcv
  have hlenrow : row.length = dts.length := by omega
  have hbs : bs.length = rb := by
    have h1 := packAux_length fs cvs 0 bs hpk
    omega
  have hmuli : i * rb + rb ≤ rb * N := by
    have h1 := Nat.mul_le_mul_right rb (show i + 1 ≤ N by omega)
    calc i * rb + rb = (i + 1) * rb := by ring
      _ ≤ N * rb := h1
      _ = rb * N := Nat.mul_comm _ _
  have hcast : (i : Int) * (rb : Int) = ((i * rb : Nat) : Int) := by
    push_cast
    ring
  have hg1 : ¬ ((N : Int) ≤ (i : Int)) := by omega
  have harr : ¬ (row.length ≠ dts.length) := by omega
  obtain ⟨w, hw⟩ := coerceRow_ok fs dts row cvs 0 bs hwf hcv hpk
  have hofs : ¬ ((i : Int) * (rb : Int) < 0) := by
    rw [hcast]
    omega
  have hinbound : i * rb + bs.length ≤ file.length := by
    rw [hbs, hlen]
    obtain ⟨A, hA⟩ : ∃ A, rb * N = A := ⟨_, rfl⟩
    obtain ⟨C, hC⟩ : ∃ C, i * rb = C := ⟨_, rfl⟩
    simp only [hA, hC] at hmuli ⊢
    omega
  have hseek : ¬ ((file.length : Int) < (i : Int) * (rb : Int)) := by
    rw [hcast]
    obtain ⟨C, hC⟩ : ∃ C, i * rb = C := ⟨_, rfl⟩
    simp only [hC] at hinbound ⊢
    omega
  have hwrite : ¬ (file.length < ((i : Int) * (rb : Int)).toNat + bs.length) := by
    rw [hcast, Int.toNat_natCast]
    obtain ⟨C, hC⟩ : ∃ C, i * rb = C := ⟨_, rfl⟩
    simp only [hC] at hinbound ⊢
    omega
  constructor
  · simp only [putRow, if_neg hg1, if_neg harr, hw, if_neg hofs, if_neg hseek, hcv,
      hpk, if_neg hwrite]
    rw [hcast, Int.toNat_natCast]
  · have hlen2 : (fileWriteAt file (i * rb) bs).length = file.length := by
      rw [fileWriteAt_length]
      obtain ⟨C, hC⟩ : ∃ C, i * rb = C := ⟨_, rfl⟩
      simp only [hC] at hinbound ⊢
      omega
    have hg : ¬ ((N : Int) ≤ (i : Int) ∨ (i : Int) < 0) := by omega
    have hseek2 : ¬ (fileWriteAt file (i * rb) bs).length < i * rb := by
      rw [hlen2]
      obtain ⟨C, hC⟩ : ∃ C, i * rb = C := ⟨_, rfl⟩
      simp only [hC] at hinbound ⊢
      omega
    have hslice : ((fileWriteAt file (i * rb) bs).drop (i * rb)).take rb = bs := by
      have h2 := fileWriteAt_slice file (i * rb) bs hinbound
      rw [hbs] at h2
      exact h2
    have hunp : unpack fs bs = .ok (List.zipWith expectedField fs cvs) := by
      rw [unpack, if_pos (by rw [hbs]; simp only [calcsize]; exact hrb)]
      have h2 := unpackAux_packAux fs cvs 0 [] bs rfl hnf hpk
      simpa using h2
    simp only [get, Int.toNat_natCast]
    rw [if_neg hg, if_neg hseek2, hslice, hunp]
    simp only [expectedGet]

/-- Witness for C1: the spec's own scenario on the store
`[("a", int32), ("b", fixed_bytes(4))]` — `put(0, (7, "hi"))` then
`get(0)` returns `(7, "hi")`. -/
theorem C1_roundtrip_witness :
    convertRow [PyVal.int 7, PyVal.str [104, 105]] =
      .ok [PyVal.int 7, PyVal.bytes [104, 105]] ∧
    pack fmtA.pack_format [PyVal.int 7, PyVal.bytes [104, 105]] =
      .ok [7, 0, 0, 0, 104, 105, 0, 0] ∧
    putRow fmtA fileA 0 [PyVal.int 7, PyVal.str [104, 105]] =
      .ok (fileWriteAt fileA 0 [7, 0, 0, 0, 104, 105, 0, 0]) ∧
    get fmtA (fileWriteAt fileA 0 [7, 0, 0, 0, 104, 105, 0, 0]) 0 =
      .ok [PyVal.int 7, PyVal.str [104, 105]] := by
  have h := C1_roundtrip fmtA fileA 0 [PyVal.int 7, PyVal.str [104, 105]]
    [PyVal.int 7, PyVal.bytes [104, 105]] [7, 0, 0, 0, 104, 105, 0, 0]
    (by decide) (by decide) (by decide) (by decide) (by decide) (by decide) (by decide)
  refine ⟨by decide, by decide, h.1, h.2.trans (congrArg Except.ok (by decide))⟩

end Descriptastorus
